import Mathlib

/-!
# Verification of the rxml streaming restricted-XML parser

This development gives a shallow embedding of the rxml crate's public
surface (src/rxml/src/lib.rs) together with a model of its core
(buffer queue, lexer and namespace-aware event parser).  The crate's
`lib.rs` only re-exports the core modules (`bufq`, `lexer`, `parser`,
`error`, ...), whose sources are not part of the excerpt; those parts
are modelled from the specification, as stated in the doc comment of
each such definition.  Everything that is present in `lib.rs`
(the `EventRead` trait with its default `read_all`/`read_all_eof`
methods, the free function `as_eof_flag`, the `FeedParser` and
`PullParser` front ends) is translated directly from that file.

Bytes are modelled as natural numbers (the value of each byte), chunks
as lists of bytes.  Events, errors and parser state are explicit
inductive types; fallible operations return `Except` or `Option`
(an `Option.none` result of `feed`/`push` models the documented panic
on pushing after the eof marker).
-/

/-- XML version carried by the declaration event.  The crate accepts
only version 1.0 (`XMLVersion::V1_0`). -/
inductive XMLVersion where
  | v1_0
deriving DecidableEq, Repr

/-- Kinds of well-formedness violations.  Modelled from the spec:
the error type of `rxml::error` is not in the excerpt; §7 of the spec
lists unmatched tags, duplicate namespace-resolved attributes,
undeclared prefix use, malformed declaration and truncated document as
the fatal well-formedness errors. -/
inductive WFKind where
  | truncated
  | mismatchedTag
  | duplicateAttribute
  | undeclaredPfx
  | malformedDecl
  | trailingContent
  | invalidSyntax
  | badReference
  | emptyNsUri
  | reservedPfx
deriving DecidableEq, Repr

/-- Kind of an I/O error, as needed by `as_eof_flag`:
`std::io::ErrorKind::WouldBlock` versus every other kind. -/
inductive IOKind where
  | wouldBlock
  | otherKind (code : Nat)
deriving DecidableEq, Repr

/-- The crate's error type.  Modelled from the spec (§7) and from the
uses in `lib.rs`: an `IO` variant wrapping an I/O error kind (retryable),
and the fatal document errors (restriction violations and
well-formedness violations). -/
inductive Err where
  | io (k : IOKind)
  | restriction
  | notWellFormed (k : WFKind)
deriving DecidableEq, Repr

/-- Fatal (document-level) errors as produced by the core parser.
The core never produces an `Err.io` value itself; I/O conditions come
from the byte source, which is why the parser's outcome type carries
this restricted error type. -/
inductive FErr where
  | restriction
  | notWellFormed (k : WFKind)
deriving DecidableEq, Repr

/-- Injection of a core parser error into the crate error type. -/
def FErr.toErr : FErr → Err
  | .restriction => .restriction
  | .notWellFormed k => .notWellFormed k

/-- `true` exactly on the non-retryable errors: per the `EventRead::read`
documentation in `lib.rs`, I/O errors may be retried and all other
errors are fatal. -/
def Err.isFatal : Err → Bool
  | .io _ => false
  | _ => true

/-- A fully namespace-resolved name: optional namespace URI plus local
name (spec §3, QName).  `uri = none` means "no namespace". -/
structure QName where
  uri : Option (List Nat)
  localName : List Nat
deriving DecidableEq, Repr

/-- The unit delivered to callers (spec §3, Event): XML declaration,
start element with ordered resolved attribute list, end element, and
decoded character data. -/
inductive Event where
  | xmlDeclaration (version : XMLVersion)
  | startElement (name : QName) (attrs : List (QName × List Nat))
  | endElement (name : QName)
  | text (data : List Nat)
deriving DecidableEq, Repr

/-- Bytes of an ASCII string literal (used only for concrete test
documents, which are all ASCII, so this agrees with their UTF-8 bytes). -/
def bs (s : String) : List Nat := s.data.map Char.toNat

/-- The XML namespace URI, to which the reserved `xml` prefix is always
bound (spec §3). -/
def xmlUri : List Nat := bs "http://www.w3.org/XML/1998/namespace"

/-- The bytes of the reserved name `xml`. -/
def xmlPfxB : List Nat := bs "xml"

/-- The bytes of the reserved attribute name `xmlns`. -/
def xmlnsB : List Nat := bs "xmlns"

/-- The bytes of the reserved attribute-name prefix `xmlns:`. -/
def xmlnsColonB : List Nat := bs "xmlns:"

/-- XML whitespace bytes: space, tab, line feed, carriage return. -/
def isWs (b : Nat) : Bool := b == 32 || b == 9 || b == 10 || b == 13

/-- First byte of a name (ASCII letters, underscore; bytes ≥ 0x80 are
accepted as name bytes, multi-byte sequences passing through). -/
def isNameStart (b : Nat) : Bool :=
  (65 ≤ b && b ≤ 90) || (97 ≤ b && b ≤ 122) || b == 95 || 128 ≤ b

/-- Subsequent byte of a name: name-start bytes, digits, `-`, `.`, `:`. -/
def isNameChar (b : Nat) : Bool :=
  isNameStart b || (48 ≤ b && b ≤ 57) || b == 45 || b == 46 || b == 58

/-- Result of running a resumable sub-scanner on the buffered bytes:
either a completed item together with the unconsumed rest of the
buffer, a signal that more bytes are needed to finish the current
token, or a fatal error. -/
inductive PR (α : Type) where
  | done (a : α) (rest : List Nat)
  | more
  | err (e : FErr)
deriving Repr

/-- Drop leading XML whitespace. -/
def skipWs : List Nat → List Nat
  | [] => []
  | b :: r => if isWs b then skipWs r else b :: r

/-- Scan a name.  Modelled from the spec (§4.2): the lexer completes a
name token only once it sees the first byte that is not a name byte;
on buffer end it reports that more input is needed without consuming
the partial name. -/
def parseNameGo (acc : List Nat) : List Nat → PR (List Nat)
  | [] => .more
  | b :: r =>
    if acc.isEmpty then
      if isNameStart b then parseNameGo [b] r
      else .err (.notWellFormed .invalidSyntax)
    else
      if isNameChar b then parseNameGo (acc ++ [b]) r
      else .done acc (b :: r)

/-- UTF-8 encoding of a Unicode scalar value (used when a numeric
character reference is decoded back into bytes). -/
def utf8Encode (n : Nat) : List Nat :=
  if n < 128 then [n]
  else if n < 2048 then [192 + n / 64, 128 + n % 64]
  else if n < 65536 then [224 + n / 4096, 128 + (n / 64) % 64, 128 + n % 64]
  else [240 + n / 262144, 128 + (n / 4096) % 64, 128 + (n / 64) % 64, 128 + n % 64]

/-- Accumulate decimal digits into a number; `none` on a non-digit. -/
def decDigitsGo (acc : Nat) : List Nat → Option Nat
  | [] => some acc
  | b :: r => if 48 ≤ b && b ≤ 57 then decDigitsGo (acc * 10 + (b - 48)) r else none

/-- Accumulate hexadecimal digits into a number; `none` on a non-digit. -/
def hexDigitsGo (acc : Nat) : List Nat → Option Nat
  | [] => some acc
  | b :: r =>
    if 48 ≤ b && b ≤ 57 then hexDigitsGo (acc * 16 + (b - 48)) r
    else if 97 ≤ b && b ≤ 102 then hexDigitsGo (acc * 16 + (b - 87)) r
    else if 65 ≤ b && b ≤ 70 then hexDigitsGo (acc * 16 + (b - 55)) r
    else none

/-- A number is a legal Unicode scalar value (and not NUL). -/
def scalarOk (n : Nat) : Bool :=
  n ≠ 0 && n ≤ 1114111 && !(55296 ≤ n && n ≤ 57343)

/-- Decode the body of one reference (the part between `&` and `;`).
Modelled from the spec (§4.2): only the five predefined entities and
numeric character references are supported; any other entity name is a
fatal restriction error. -/
def refValue (nm : List Nat) : Except FErr (List Nat) :=
  if nm == bs "amp" then .ok [38]
  else if nm == bs "lt" then .ok [60]
  else if nm == bs "gt" then .ok [62]
  else if nm == bs "apos" then .ok [39]
  else if nm == bs "quot" then .ok [34]
  else
    match nm with
    | 35 :: rest =>
      match rest with
      | 120 :: ds =>
        match hexDigitsGo 0 ds with
        | some n => if !ds.isEmpty && scalarOk n then .ok (utf8Encode n)
                    else .error (.notWellFormed .badReference)
        | none => .error (.notWellFormed .badReference)
      | ds =>
        match decDigitsGo 0 ds with
        | some n => if !ds.isEmpty && scalarOk n then .ok (utf8Encode n)
                    else .error (.notWellFormed .badReference)
        | none => .error (.notWellFormed .badReference)
    | _ => .error .restriction

/-- Decode all `&...;` references in an already-delimited run of bytes.
`mode = some nm` means a reference is in progress with accumulated
body `nm`. -/
def decodeRefsGo (mode : Option (List Nat)) : List Nat → Except FErr (List Nat)
  | [] =>
    match mode with
    | none => .ok []
    | some _ => .error (.notWellFormed .badReference)
  | b :: r =>
    match mode with
    | none =>
      if b == 38 then decodeRefsGo (some []) r
      else
        match decodeRefsGo none r with
        | .ok d => .ok (b :: d)
        | .error e => .error e
    | some nm =>
      if b == 59 then
        match refValue nm with
        | .error e => .error e
        | .ok dec =>
          match decodeRefsGo none r with
          | .ok d => .ok (dec ++ d)
          | .error e => .error e
      else decodeRefsGo (some (nm ++ [b])) r

/-- Decode the references in a completed text run or attribute value. -/
def decodeRefs (l : List Nat) : Except FErr (List Nat) := decodeRefsGo none l

/-- State of the attribute-list scanner inside a start tag. -/
inductive AttrSt where
  | between (needWs : Bool)
  | slashSeen
  | inName (nm : List Nat)
  | beforeEq (nm : List Nat)
  | afterEq (nm : List Nat)
  | inValue (nm : List Nat) (q : Nat) (vacc : List Nat)
deriving Repr

/-- Scan the attribute list of a start tag, after the element name, up
to and including the closing `>` or `/>`.  Returns the raw
(name, value) pairs in source order and the empty-element flag.
Modelled from the spec (§4.2): attribute values are quote-delimited,
a literal `<` inside a value is a well-formedness error, and literal
tab/newline/carriage-return bytes inside a value are normalized to
spaces; references are kept raw here and decoded once the value is
complete. -/
def attrsGo (s : AttrSt) (acc : List (List Nat × List Nat)) :
    List Nat → PR (List (List Nat × List Nat) × Bool)
  | [] => .more
  | b :: r =>
    match s with
    | .between needWs =>
      if isWs b then attrsGo (.between false) acc r
      else if b == 62 then .done (acc, false) r
      else if b == 47 then attrsGo .slashSeen acc r
      else if needWs then .err (.notWellFormed .invalidSyntax)
      else if isNameStart b then attrsGo (.inName [b]) acc r
      else .err (.notWellFormed .invalidSyntax)
    | .slashSeen =>
      if b == 62 then .done (acc, true) r else .err (.notWellFormed .invalidSyntax)
    | .inName nm =>
      if isNameChar b then attrsGo (.inName (nm ++ [b])) acc r
      else if isWs b then attrsGo (.beforeEq nm) acc r
      else if b == 61 then attrsGo (.afterEq nm) acc r
      else .err (.notWellFormed .invalidSyntax)
    | .beforeEq nm =>
      if isWs b then attrsGo (.beforeEq nm) acc r
      else if b == 61 then attrsGo (.afterEq nm) acc r
      else .err (.notWellFormed .invalidSyntax)
    | .afterEq nm =>
      if isWs b then attrsGo (.afterEq nm) acc r
      else if b == 34 || b == 39 then attrsGo (.inValue nm b []) acc r
      else .err (.notWellFormed .invalidSyntax)
    | .inValue nm q vacc =>
      if b == q then attrsGo (.between true) (acc ++ [(nm, vacc)]) r
      else if b == 60 then .err (.notWellFormed .invalidSyntax)
      else if b == 9 || b == 10 || b == 13 then attrsGo (.inValue nm q (vacc ++ [32])) acc r
      else attrsGo (.inValue nm q (vacc ++ [b])) acc r

/-- Scan the tail of an end tag after its name: optional whitespace
then `>`. -/
def closeTagGo : List Nat → PR Unit
  | [] => .more
  | b :: r =>
    if isWs b then closeTagGo r
    else if b == 62 then .done () r
    else .err (.notWellFormed .invalidSyntax)

/-- Result of scanning a run of character data: it either extends up to
the next `<` (which is left in the buffer) or up to the end of the
currently buffered bytes. -/
inductive TextOut where
  | toMarkup (raw : List Nat) (rest : List Nat)
  | toEnd (raw : List Nat)
deriving Repr

/-- Scan raw character data up to the next `<` or the end of the buffer. -/
def textRawGo (acc : List Nat) : List Nat → TextOut
  | [] => .toEnd acc
  | b :: r => if b == 60 then .toMarkup acc (b :: r) else textRawGo (acc ++ [b]) r

/-- One layer of namespace bindings, pushed per start tag: prefix bytes
(`[]` for the default namespace) mapped to an optional URI (`none`
records an `xmlns=""` un-declaration of the default namespace).
Spec §3, "Namespace scope". -/
abbrev Scope := List (List Nat × Option (List Nat))

/-- Look a prefix up in one scope layer. -/
def assocFind (s : Scope) (p : List Nat) : Option (Option (List Nat)) :=
  match s with
  | [] => none
  | (q, v) :: r => if q == p then some v else assocFind r p

/-- Look a prefix up across the stack of in-scope layers, innermost
first (spec §3: resolution is against the innermost enclosing
declarations). -/
def lookupPfx (scopes : List Scope) (p : List Nat) : Option (Option (List Nat)) :=
  match scopes with
  | [] => none
  | s :: rest =>
    match assocFind s p with
    | some v => some v
    | none => lookupPfx rest p

/-- Split a raw lexical name at its colon into (prefix, local name);
`([], name)` when there is no colon.  Empty prefix or local part, or a
second colon, is a well-formedness error. -/
def splitNameGo (acc : List Nat) : List Nat → Option (List Nat × List Nat)
  | [] => none
  | b :: r => if b == 58 then some (acc, r) else splitNameGo (acc ++ [b]) r

/-- See `splitNameGo`. -/
def splitName (nm : List Nat) : Except FErr (List Nat × List Nat) :=
  match splitNameGo [] nm with
  | none => .ok ([], nm)
  | some (p, l) =>
    if p.isEmpty || l.isEmpty || l.contains 58 then
      .error (.notWellFormed .invalidSyntax)
    else .ok (p, l)

/-- Resolve an element name against the in-scope bindings.  Modelled
from the spec (§3, §4.3): an unprefixed element takes the default
namespace (or none when no default is in scope), the reserved `xml`
prefix is always bound to the XML namespace, and any other prefix must
be declared in some enclosing scope. -/
def resolveElemName (scopes : List Scope) (raw : List Nat) : Except FErr QName :=
  match splitName raw with
  | .error e => .error e
  | .ok (p, l) =>
    if p.isEmpty then
      match lookupPfx scopes [] with
      | some (some u) => .ok ⟨some u, l⟩
      | _ => .ok ⟨none, l⟩
    else if p == xmlPfxB then .ok ⟨some xmlUri, l⟩
    else
      match lookupPfx scopes p with
      | some (some u) => .ok ⟨some u, l⟩
      | _ => .error (.notWellFormed .undeclaredPfx)

/-- Resolve an attribute name.  Differs from element resolution in that
an unprefixed attribute is in no namespace, not in the default
namespace (spec §3). -/
def resolveAttrName (scopes : List Scope) (raw : List Nat) : Except FErr QName :=
  match splitName raw with
  | .error e => .error e
  | .ok (p, l) =>
    if p.isEmpty then .ok ⟨none, l⟩
    else if p == xmlPfxB then .ok ⟨some xmlUri, l⟩
    else
      match lookupPfx scopes p with
      | some (some u) => .ok ⟨some u, l⟩
      | _ => .error (.notWellFormed .undeclaredPfx)

/-- Is this raw attribute name a namespace declaration
(`xmlns` or `xmlns:...`)? -/
def isXmlnsName (nm : List Nat) : Bool :=
  nm == xmlnsB || nm.take 6 == xmlnsColonB

/-- Collect the namespace declarations of one start tag into a new
scope layer (spec §4.3, first pass).  The reserved prefixes `xml` and
`xmlns` cannot be (re)declared, except that `xml` may be bound to its
fixed URI; a prefixed declaration with an empty URI is rejected. -/
def collectDecls : List (List Nat × List Nat) → Except FErr Scope
  | [] => .ok []
  | (nm, v) :: rest =>
    if nm == xmlnsB then
      match collectDecls rest with
      | .ok s => .ok ((([] : List Nat), if v.isEmpty then none else some v) :: s)
      | .error e => .error e
    else if nm.take 6 == xmlnsColonB then
      let p := nm.drop 6
      if p.isEmpty || p.contains 58 then .error (.notWellFormed .invalidSyntax)
      else if p == xmlPfxB then
        if v == xmlUri then collectDecls rest else .error (.notWellFormed .reservedPfx)
      else if p == xmlnsB then .error (.notWellFormed .reservedPfx)
      else if v.isEmpty then .error (.notWellFormed .emptyNsUri)
      else
        match collectDecls rest with
        | .ok s => .ok ((p, some v) :: s)
        | .error e => .error e
    else collectDecls rest

/-- Decode the references in every attribute value. -/
def decodeAttrVals : List (List Nat × List Nat) → Except FErr (List (List Nat × List Nat))
  | [] => .ok []
  | (nm, v) :: rest =>
    match decodeRefs v with
    | .error e => .error e
    | .ok d =>
      match decodeAttrVals rest with
      | .ok tl => .ok ((nm, d) :: tl)
      | .error e => .error e

/-- Resolve the non-declaration attributes in order. -/
def resolveAttrList (scopes : List Scope) :
    List (List Nat × List Nat) → Except FErr (List (QName × List Nat))
  | [] => .ok []
  | (nm, v) :: rest =>
    match resolveAttrName scopes nm with
    | .error e => .error e
    | .ok q =>
      match resolveAttrList scopes rest with
      | .ok tl => .ok ((q, v) :: tl)
      | .error e => .error e

/-- Does the list contain two equal elements? -/
def hasDup [BEq α] : List α → Bool
  | [] => false
  | x :: r => r.contains x || hasDup r

/-- The (namespace URI, local name) key of a resolved attribute. -/
def attrKey (a : QName × List Nat) : Option (List Nat) × List Nat :=
  (a.1.uri, a.1.localName)

/-- Namespace processing of one completed start tag (spec §4.3):
source-order raw attributes are checked for lexical duplicates, their
values are decoded, the tag's own `xmlns*` attributes are collected
into a new scope layered on the parent scope, then the element name
and every non-declaration attribute are resolved against the
now-complete scope; finally two attributes must not resolve to the
same (namespace URI, local name) pair.  Returns the element QName, the
resolved attribute list and the new scope layer. -/
def finishStartTag (scopes : List Scope) (rawName : List Nat)
    (rawAttrs : List (List Nat × List Nat)) :
    Except FErr (QName × List (QName × List Nat) × Scope) :=
  if hasDup (rawAttrs.map Prod.fst) then .error (.notWellFormed .duplicateAttribute)
  else
    match decodeAttrVals rawAttrs with
    | .error e => .error e
    | .ok attrs =>
      match collectDecls attrs with
      | .error e => .error e
      | .ok newScope =>
        let scopes2 := newScope :: scopes
        match resolveElemName scopes2 rawName with
        | .error e => .error e
        | .ok elemQ =>
          match resolveAttrList scopes2 (attrs.filter (fun a => !isXmlnsName a.1)) with
          | .error e => .error e
          | .ok resAttrs =>
            if hasDup (resAttrs.map attrKey) then
              .error (.notWellFormed .duplicateAttribute)
            else .ok (elemQ, resAttrs, newScope)

/-- One frame of the open-element stack: the raw lexical tag name (for
end-tag matching) and the resolved QName (reused for the EndElement
event).  Spec §4.3. -/
structure Frame where
  rawName : List Nat
  qname : QName
deriving DecidableEq, Repr

/-- The parser's document state.  Modelled from the spec (§4.3, §4.2):
`declAllowed` is true only while nothing has been consumed yet (the
XML declaration is only recognized at the very start), `rootSeen`
records that a root element has been opened, `stack` is the
open-element stack, `scopes` the matching stack of namespace scope
layers, and `pending` holds the EndElement event that an
empty-element tag produces right after its StartElement. -/
structure PState where
  declAllowed : Bool
  rootSeen : Bool
  stack : List Frame
  scopes : List Scope
  pending : List Event
deriving DecidableEq, Repr

/-- Initial parser state. -/
def PState.init : PState := ⟨true, false, [], [], []⟩

/-- Outcome of attempting to produce the next event from the buffered
bytes: an event together with the successor state and the unconsumed
rest of the buffer; the end of a complete document; a signal that the
buffered bytes do not suffice; or a fatal document error. -/
inductive ROut where
  | ev (e : Event) (st2 : PState) (rest : List Nat)
  | eod
  | needMore
  | fatal (e : FErr)
deriving Repr

/-- Process a start tag.  `buf` is positioned just after the `<`, at
the first byte of the name.  An empty-element tag emits its
StartElement at once and queues the matching EndElement as pending;
a normal start tag pushes an element frame and its new scope layer.
Modelled from the spec §4.3. -/
def startTagPath (st : PState) (buf : List Nat) (eof : Bool) : ROut :=
  match parseNameGo [] buf with
  | .more => if eof then .fatal (.notWellFormed .truncated) else .needMore
  | .err e => .fatal e
  | .done nm rest =>
    match attrsGo (.between true) [] rest with
    | .more => if eof then .fatal (.notWellFormed .truncated) else .needMore
    | .err e => .fatal e
    | .done (ras, selfClose) rest2 =>
      match finishStartTag st.scopes nm ras with
      | .error e => .fatal e
      | .ok (q, resAttrs, newScope) =>
        if selfClose then
          .ev (.startElement q resAttrs)
            { declAllowed := false, rootSeen := true, stack := st.stack,
              scopes := st.scopes, pending := [.endElement q] } rest2
        else
          .ev (.startElement q resAttrs)
            { declAllowed := false, rootSeen := true, stack := ⟨nm, q⟩ :: st.stack,
              scopes := newScope :: st.scopes, pending := [] } rest2

/-- Process an end tag.  `buf` is positioned just after the `</`.  The
name must match the innermost open element lexically; the element's
frame and its scope layer are popped.  Modelled from the spec §4.3. -/
def endTagPath (st : PState) (buf : List Nat) (eof : Bool) : ROut :=
  match parseNameGo [] buf with
  | .more => if eof then .fatal (.notWellFormed .truncated) else .needMore
  | .err e => .fatal e
  | .done nm rest =>
    match closeTagGo rest with
    | .more => if eof then .fatal (.notWellFormed .truncated) else .needMore
    | .err e => .fatal e
    | .done () rest2 =>
      match st.stack with
      | [] => .fatal (.notWellFormed .invalidSyntax)
      | f :: stk =>
        if nm == f.rawName then
          .ev (.endElement f.qname)
            { declAllowed := false, rootSeen := true, stack := stk,
              scopes := st.scopes.drop 1, pending := [] } rest2
        else .fatal (.notWellFormed .mismatchedTag)

/-- Process character data.  A text event extends up to the next `<`;
character data at the end of the buffered bytes is emitted only once
the eof marker is present (otherwise the lexer waits for more input,
so that the produced events do not depend on chunk boundaries).
References are decoded at assembly (spec §4.2/§4.3). -/
def textPath (st : PState) (buf : List Nat) (eof : Bool) : ROut :=
  match textRawGo [] buf with
  | .toMarkup raw rest =>
    match decodeRefs raw with
    | .error e => .fatal e
    | .ok dat => .ev (.text dat) { st with declAllowed := false } rest
  | .toEnd raw =>
    if eof then
      match decodeRefs raw with
      | .error e => .fatal e
      | .ok dat => .ev (.text dat) { st with declAllowed := false } []
    else .needMore

/-- State of the XML-declaration scanner after `<?xml`. -/
inductive DeclSt where
  | between (needWs : Bool)
  | qmSeen
  | inName (nm : List Nat)
  | beforeEq (nm : List Nat)
  | afterEq (nm : List Nat)
  | inValue (nm : List Nat) (q : Nat) (vacc : List Nat)
deriving Repr

/-- Scan the name="value" pairs of the XML declaration up to and
including the closing `?>`. -/
def declGo (s : DeclSt) (acc : List (List Nat × List Nat)) :
    List Nat → PR (List (List Nat × List Nat))
  | [] => .more
  | b :: r =>
    match s with
    | .between needWs =>
      if isWs b then declGo (.between false) acc r
      else if b == 63 then declGo .qmSeen acc r
      else if needWs then .err (.notWellFormed .malformedDecl)
      else if isNameStart b then declGo (.inName [b]) acc r
      else .err (.notWellFormed .malformedDecl)
    | .qmSeen =>
      if b == 62 then .done acc r else .err (.notWellFormed .malformedDecl)
    | .inName nm =>
      if isNameChar b then declGo (.inName (nm ++ [b])) acc r
      else if isWs b then declGo (.beforeEq nm) acc r
      else if b == 61 then declGo (.afterEq nm) acc r
      else .err (.notWellFormed .malformedDecl)
    | .beforeEq nm =>
      if isWs b then declGo (.beforeEq nm) acc r
      else if b == 61 then declGo (.afterEq nm) acc r
      else .err (.notWellFormed .malformedDecl)
    | .afterEq nm =>
      if isWs b then declGo (.afterEq nm) acc r
      else if b == 34 || b == 39 then declGo (.inValue nm b []) acc r
      else .err (.notWellFormed .malformedDecl)
    | .inValue nm q vacc =>
      if b == q then declGo (.between true) (acc ++ [(nm, vacc)]) r
      else declGo (.inValue nm q (vacc ++ [b])) acc r

/-- Validate the trailing `standalone` pseudo-attribute (or nothing). -/
def validateTail2 : List (List Nat × List Nat) → Except FErr XMLVersion
  | [] => .ok .v1_0
  | (n, v) :: rest =>
    if n == bs "standalone" && rest.isEmpty then
      if v == bs "yes" || v == bs "no" then .ok .v1_0
      else .error (.notWellFormed .malformedDecl)
    else .error (.notWellFormed .malformedDecl)

/-- Validate the optional `encoding` pseudo-attribute: only UTF-8 is
accepted (spec §1, §4.2). -/
def validateTail : List (List Nat × List Nat) → Except FErr XMLVersion
  | [] => .ok .v1_0
  | (n, v) :: rest =>
    if n == bs "encoding" then
      if v == bs "utf-8" || v == bs "UTF-8" then validateTail2 rest
      else .error .restriction
    else validateTail2 ((n, v) :: rest)

/-- Validate the collected declaration pseudo-attributes: the version
must be present and be exactly `1.0` (a different version is a fatal
restriction error, spec §4.3/§7). -/
def validateDecl (ps : List (List Nat × List Nat)) : Except FErr XMLVersion :=
  match ps with
  | [] => .error (.notWellFormed .malformedDecl)
  | (n1, v1) :: rest =>
    if n1 == bs "version" then
      if v1 == bs "1.0" then validateTail rest else .error .restriction
    else .error (.notWellFormed .malformedDecl)

/-- Process the XML declaration.  `buf` is positioned just after `<?`.
A `<?...` whose name turns out different from `xml` is a processing
instruction, which the restricted grammar rejects (spec §4.2). -/
def declPath (st : PState) (buf : List Nat) (eof : Bool) : ROut :=
  match parseNameGo [] buf with
  | .more => if eof then .fatal (.notWellFormed .truncated) else .needMore
  | .err _ => .fatal .restriction
  | .done nm rest =>
    if nm == xmlPfxB then
      match declGo (.between true) [] rest with
      | .more => if eof then .fatal (.notWellFormed .truncated) else .needMore
      | .err e => .fatal e
      | .done ps rest2 =>
        match validateDecl ps with
        | .error e => .fatal e
        | .ok v => .ev (.xmlDeclaration v) { st with declAllowed := false } rest2
    else .fatal .restriction

/-- Dispatch inside an open element after a `<` has been seen
(spec §4.3): an end tag, a nested start tag; `<?` and `<!` are
restricted-grammar violations. -/
def contentLt (st : PState) (r : List Nat) (eof : Bool) : ROut :=
  match r with
  | [] => if eof then .fatal (.notWellFormed .truncated) else .needMore
  | c :: r2 =>
    if c == 47 then endTagPath st r2 eof
    else if c == 63 then .fatal .restriction
    else if c == 33 then .fatal .restriction
    else if isNameStart c then startTagPath st (c :: r2) eof
    else .fatal (.notWellFormed .invalidSyntax)

/-- Dispatch inside an open element (spec §4.3): markup via
`contentLt`, anything else is character data; eof with the buffer
exhausted means the document is truncated. -/
def contentDispatch (st : PState) (buf : List Nat) (eof : Bool) : ROut :=
  match buf with
  | [] => if eof then .fatal (.notWellFormed .truncated) else .needMore
  | b :: r =>
    if b == 60 then contentLt st r eof
    else textPath st (b :: r) eof

/-- Dispatch outside any element, in the prolog or the epilog
(spec §4.3): whitespace is skipped; before the root only a start tag
is acceptable (`<?`/`<!` violate the restricted grammar); after the
root closes, any further content is a fatal trailing-content error;
eof is the successful end of the document exactly when a root element
was seen, and a fatal truncated-document error otherwise. -/
def prologLt (st : PState) (r : List Nat) (eof : Bool) : ROut :=
  match r with
  | [] => if eof then .fatal (.notWellFormed .truncated) else .needMore
  | c :: r2 =>
    if c == 63 then .fatal .restriction
    else if c == 33 then .fatal .restriction
    else if c == 47 then .fatal (.notWellFormed .invalidSyntax)
    else if isNameStart c then startTagPath st (c :: r2) eof
    else .fatal (.notWellFormed .invalidSyntax)

/-- See the comment before `prologLt`. -/
def prologDispatch (st : PState) (buf : List Nat) (eof : Bool) : ROut :=
  match skipWs buf with
  | [] =>
    if eof then
      if st.rootSeen then .eod else .fatal (.notWellFormed .truncated)
    else .needMore
  | b :: r =>
    if b == 60 then
      if st.rootSeen then .fatal (.notWellFormed .trailingContent)
      else prologLt st r eof
    else
      .fatal (if st.rootSeen then .notWellFormed .trailingContent else .notWellFormed .invalidSyntax)

/-- Attempt to produce the next event from the buffered bytes `buf`
(`eof` records whether the eof marker has been received).  This is the
core state machine (lexer + parser) of the spec (§4.2/§4.3), in the
observationally equivalent re-scan form: when the buffered bytes do
not complete the next event the attempt consumes nothing and reports
`needMore`; partial-token state is reconstructed from the unchanged
buffer on the next attempt, so no byte is lost or consumed twice.
The XML declaration is only recognized while nothing has been
consumed yet. -/
def dispatch (st : PState) (buf : List Nat) (eof : Bool) : ROut :=
  if st.stack.isEmpty then prologDispatch st buf eof else contentDispatch st buf eof

/-- After an initial `<` while the declaration is still allowed:
a following `?` enters the declaration, anything else goes through the
normal dispatch on the whole buffer `buf`. -/
def declLt (st : PState) (r : List Nat) (eof : Bool) (buf : List Nat) : ROut :=
  match r with
  | [] => if eof then .fatal (.notWellFormed .truncated) else .needMore
  | c :: r2 => if c == 63 then declPath st r2 eof else dispatch st buf eof

/-- See the comment on `dispatch`: this is the entry point of the core
state machine; it additionally recognizes the XML declaration while
nothing has been consumed yet and defers everything else to
`dispatch`. -/
def readEvent (st : PState) (buf : List Nat) (eof : Bool) : ROut :=
  if st.declAllowed then
    match buf with
    | [] => if eof then .fatal (.notWellFormed .truncated) else .needMore
    | b :: r =>
      if b == 60 then declLt st r eof (b :: r)
      else dispatch st (b :: r) eof
  else dispatch st buf eof

/-- Ordered collection of byte chunks supplied by the caller plus the
eof marker.  Modelled from the spec (§2, §3, §4.1): `rxml::bufq` is
not part of the excerpt; the queue exposes the unread bytes of its
chunks, in FIFO order, as a single logical stream. -/
structure BufferQueue where
  chunks : List (List Nat)
  eof : Bool
deriving DecidableEq, Repr

/-- A fresh, empty queue. -/
def BufferQueue.new : BufferQueue := ⟨[], false⟩

/-- `push(chunk)`: appends a chunk; pushing after the eof marker is a
contract failure (a panic in the crate), modelled as `none`
(spec §4.1). -/
def BufferQueue.push (q : BufferQueue) (c : List Nat) : Option BufferQueue :=
  if q.eof then none else some ⟨q.chunks ++ [c], q.eof⟩

/-- `push_eof()`: marks that no more data will arrive; a second call is
a contract violation (spec §4.1). -/
def BufferQueue.push_eof (q : BufferQueue) : Option BufferQueue :=
  if q.eof then none else some ⟨q.chunks, true⟩

/-- The unread bytes of the queue as one logical stream (spec §4.1). -/
def BufferQueue.flatten (q : BufferQueue) : List Nat :=
  q.chunks.foldr (· ++ ·) []

/-- `len()`: total unread byte count across all retained chunks
(spec §4.1). -/
def BufferQueue.len (q : BufferQueue) : Nat :=
  (q.chunks.map List.length).sum

/-- Drop `n` consumed bytes from the front of the chunk list; fully
consumed chunks are dropped eagerly (spec §3/§4.1). -/
def consumeChunks : List (List Nat) → Nat → List (List Nat)
  | [], _ => []
  | c :: cs, n => if n < c.length then c.drop n :: cs else consumeChunks cs (n - c.length)

/-- Advance the queue's read position by `n` bytes. -/
def BufferQueue.consume (q : BufferQueue) (n : Nat) : BufferQueue :=
  ⟨consumeChunks q.chunks n, q.eof⟩

/-- The non-blocking front end (`FeedParser` in `lib.rs`): a buffer
queue fed by the caller, the core parser state, and the sticky fatal
error, if one was produced (spec §5: once a fatal error is produced,
every subsequent read returns it again). -/
structure FeedParser where
  bufq : BufferQueue
  st : PState
  err : Option Err
deriving DecidableEq, Repr

/-- `FeedParser::new()`. -/
def FeedParser.new : FeedParser := ⟨BufferQueue.new, PState.init, none⟩

/-- `FeedParser::feed(data)`: enqueues a chunk without processing it;
panics (modelled as `none`) if `feed_eof` was called before
(`lib.rs` lines 223-236). -/
def FeedParser.feed (fp : FeedParser) (c : List Nat) : Option FeedParser :=
  match fp.bufq.push c with
  | some q => some { fp with bufq := q }
  | none => none

/-- `FeedParser::feed_eof()` (`lib.rs` lines 238-248). -/
def FeedParser.feed_eof (fp : FeedParser) : Option FeedParser :=
  match fp.bufq.push_eof with
  | some q => some { fp with bufq := q }
  | none => none

/-- `FeedParser::buffered()`: unread byte count (`lib.rs` lines 250-259). -/
def FeedParser.buffered (fp : FeedParser) : Nat := fp.bufq.len

/-- `<FeedParser as EventRead>::read()` (`lib.rs` lines 280-294, core
behaviour modelled from the spec): a sticky fatal error is returned
again without touching the state; otherwise a pending event (the
EndElement of an empty-element tag) is delivered; otherwise the core
attempts to produce an event from the buffered bytes — on success the
consumed bytes are dropped from the queue, on insufficient data an
I/O error of kind WouldBlock is returned with the state unchanged, at
the end of the document `none` is returned, and a fatal error is
recorded (making it sticky) and returned. -/
def FeedParser.read (fp : FeedParser) : FeedParser × Except Err (Option Event) :=
  match fp.err with
  | some e => (fp, .error e)
  | none =>
    match fp.st.pending with
    | e :: ps => ({ fp with st := { fp.st with pending := ps } }, .ok (some e))
    | [] =>
      match readEvent fp.st fp.bufq.flatten fp.bufq.eof with
      | .ev e st2 rest =>
        ({ fp with st := st2,
                   bufq := fp.bufq.consume (fp.bufq.flatten.length - rest.length) },
         .ok (some e))
      | .eod => (fp, .ok none)
      | .needMore => (fp, .error (.io .wouldBlock))
      | .fatal fe => ({ fp with err := some fe.toErr }, .error fe.toErr)

/-- The blocking front end (`PullParser` in `lib.rs`): the whole byte
stream of the blocking source is the list `src` (a pure model of a
source that blocks until its bytes are available and then reports
eof), plus the core parser state and the sticky error. -/
structure PullParser where
  src : List Nat
  st : PState
  err : Option Err
deriving DecidableEq, Repr

/-- `PullParser::new(inner)`. -/
def PullParser.new (src : List Nat) : PullParser := ⟨src, PState.init, none⟩

/-- `<PullParser as EventRead>::read()` (`lib.rs` lines 356-369, core
behaviour modelled from the spec), analogous to `FeedParser.read`. -/
def PullParser.read (pp : PullParser) : PullParser × Except Err (Option Event) :=
  match pp.err with
  | some e => (pp, .error e)
  | none =>
    match pp.st.pending with
    | e :: ps => ({ pp with st := { pp.st with pending := ps } }, .ok (some e))
    | [] =>
      match readEvent pp.st pp.src true with
      | .ev e st2 rest => ({ pp with st := st2, src := rest }, .ok (some e))
      | .eod => (pp, .ok none)
      | .needMore => (pp, .error (.io .wouldBlock))
      | .fatal fe => ({ pp with err := some fe.toErr }, .error fe.toErr)

/-- Read events from a `FeedParser` until `read` reports the end of the
document or an error, with `fuel` bounding the number of reads
(`none` when the fuel runs out first).  Returns the events in order
together with the final outcome: `.ok ()` when `read` returned
`Ok(None)` (end of document), `.error e` for the first error. -/
def drain : Nat → FeedParser → Option (List Event × Except Err Unit)
  | 0, _ => none
  | n + 1, fp =>
    match fp.read with
    | (fp2, .ok (some e)) =>
      match drain n fp2 with
      | some (evs, out) => some (e :: evs, out)
      | none => none
    | (_, .ok none) => some ([], .ok ())
    | (_, .error e) => some ([], .error e)

/-- Perform `n` reads, collecting the delivered events. -/
def readN : Nat → FeedParser → FeedParser × List Event
  | 0, fp => (fp, [])
  | n + 1, fp =>
    match fp.read with
    | (fp2, .ok (some e)) =>
      let (fpE, evs) := readN n fp2
      (fpE, e :: evs)
    | (fp2, _) =>
      let (fpE, evs) := readN n fp2
      (fpE, evs)

/-- One step of a driving schedule: feed a chunk, or attempt a read. -/
inductive Op where
  | feed (c : List Nat)
  | readStep
deriving DecidableEq, Repr

/-- Run a schedule of interleaved feeds and reads against a
`FeedParser`, collecting the events delivered by the reads (reads
that report would-block, end-of-document or an error deliver no
event); `none` if some feed violated the feed-after-eof contract. -/
def runOps : FeedParser → List Op → Option (FeedParser × List Event)
  | fp, [] => some (fp, [])
  | fp, .feed c :: ops =>
    match fp.feed c with
    | some fp2 => runOps fp2 ops
    | none => none
  | fp, .readStep :: ops =>
    match fp.read with
    | (fp2, .ok (some e)) =>
      match runOps fp2 ops with
      | some (fpE, evs) => some (fpE, e :: evs)
      | none => none
    | (fp2, _) => runOps fp2 ops

/-- All bytes fed by a schedule, in order. -/
def opsBytes : List Op → List Nat
  | [] => []
  | .feed c :: ops => c ++ opsBytes ops
  | .readStep :: ops => opsBytes ops

/-- Feed one document in a single chunk, mark eof, and drain:
the reference one-shot parse. -/
def parseDoc (doc : List Nat) (fuel : Nat) : Option (List Event × Except Err Unit) :=
  match FeedParser.new.feed doc with
  | none => none
  | some fp =>
    match fp.feed_eof with
    | none => none
    | some fp2 => drain fuel fp2

/-- The result of one `EventRead::read()` call: an event, `none` at the
end of the document, or an error (`lib.rs` line 115). -/
abbrev RRes := Except Err (Option Event)

/-- The default `EventRead::read_all(cb)` method (`lib.rs` lines
125-135), embedded over the trait interface: the parser's successive
`read()` results are given as a list (an empty list standing for a
parser that keeps reporting the end of the document), and the events
passed to `cb` are collected in order.  The loop stops with `.ok ()`
when `read()` returns `Ok(None)` and propagates the first error. -/
def read_all : List RRes → List Event × Except Err Unit
  | [] => ([], .ok ())
  | r :: rest =>
    match r with
    | .ok none => ([], .ok ())
    | .ok (some e) =>
      let (evs, out) := read_all rest
      (e :: evs, out)
    | .error e => ([], .error e)

/-- The free function `as_eof_flag` (`lib.rs` lines 202-208): an I/O
error of kind WouldBlock becomes `Ok(false)`, success becomes
`Ok(true)`, every other error is passed through. -/
def as_eof_flag : Except Err Unit → Except Err Bool
  | .error (.io .wouldBlock) => .ok false
  | .error e => .error e
  | .ok () => .ok true

/-- The default `EventRead::read_all_eof(cb)` method (`lib.rs` lines
149-154): `as_eof_flag(self.read_all(cb))`, here paired with the
events delivered to `cb`. -/
def read_all_eof (trace : List RRes) : List Event × Except Err Bool :=
  ((read_all trace).1, as_eof_flag (read_all trace).2)

/-- A trace fragment in which each read delivers one event. -/
def evTrace (evs : List Event) : List RRes :=
  evs.map (fun e => .ok (some e))

theorem readAll_evTrace_none (evs : List Event) (rest : List RRes) :
    read_all (evTrace evs ++ .ok none :: rest) = (evs, .ok ()) := by
  induction evs with
  | nil => simp [evTrace, read_all]
  | cons x xs ih => simp only [evTrace, List.map_cons, List.cons_append, read_all, List.append_eq] at ih ⊢; rw [ih]

theorem readAll_evTrace_err (evs : List Event) (rest : List RRes) (e : Err) :
    read_all (evTrace evs ++ .error e :: rest) = (evs, .error e) := by
  induction evs with
  | nil => simp [evTrace, read_all]
  | cons x xs ih => simp only [evTrace, List.map_cons, List.cons_append, read_all, List.append_eq] at ih ⊢; rw [ih]

/-- C10: the default `read_all(cb)` method invokes `cb` exactly once,
in order, for each event that `read()` yields, returns `Ok(())`
exactly when `read()` returns `Ok(None)`, and on the first error from
`read()` — of any kind, including a retryable WouldBlock — returns
that error immediately without invoking `cb` for it, having already
delivered all events produced before the error. -/
theorem read_all_delivers_events_then_stops :
    ∀ (evs : List Event) (rest : List RRes) (e : Err),
      read_all (evTrace evs ++ .ok none :: rest) = (evs, .ok ()) ∧
      read_all (evTrace evs ++ .error e :: rest) = (evs, .error e) :=
  fun evs rest e => ⟨readAll_evTrace_none evs rest, readAll_evTrace_err evs rest e⟩

/-- C4: `read_all_eof(cb)` invokes `cb` once per produced event in
document order and returns `Ok(true)` exactly when the end of the
document was reached (`read` returned `None`), `Ok(false)` exactly
when the underlying error was an I/O error of kind WouldBlock, and
passes every other error through unchanged; equivalently,
`as_eof_flag` maps `Ok(())` to `Ok(true)`, a WouldBlock I/O error to
`Ok(false)`, and any other error to itself. -/
theorem read_all_eof_flag_behaviour :
    ∀ (evs : List Event) (rest : List RRes) (e : Err),
      read_all_eof (evTrace evs ++ .ok none :: rest) = (evs, .ok true) ∧
      read_all_eof (evTrace evs ++ .error (.io .wouldBlock) :: rest) = (evs, .ok false) ∧
      read_all_eof (evTrace evs ++ .error e :: rest)
        = (evs, match e with | .io .wouldBlock => .ok false | _ => .error e) ∧
      as_eof_flag (.ok ()) = .ok true ∧
      as_eof_flag (.error (.io .wouldBlock)) = .ok false := by
  intro evs rest e
  refine ⟨?_, ?_, ?_, rfl, rfl⟩
  · simp [read_all_eof, readAll_evTrace_none, as_eof_flag]
  · simp [read_all_eof, readAll_evTrace_err, as_eof_flag]
  · simp only [read_all_eof, readAll_evTrace_err]
    cases e with
    | io k => cases k <;> rfl
    | restriction => rfl
    | notWellFormed k => rfl

/-- C9: parsing the minimal declaration-free document `<a/>` with eof
fed produces exactly StartElement(a) then EndElement(a), and then the
end of the document (`drain` finishing with `.ok ()` records that
`read` returned `Ok(None)`); in particular no XML-declaration event is
synthesized for the absent declaration. -/
theorem minimal_document_exact_events :
    parseDoc (bs "<a/>") 4
      = some ([.startElement ⟨none, bs "a"⟩ [], .endElement ⟨none, bs "a"⟩], .ok ()) := by
  rfl

/-- At eof with an empty buffer and a non-empty open-element stack the
core reports a fatal truncated-document error (spec §4.3). -/
theorem readEvent_eof_open_stack (st : PState) (h : st.stack ≠ []) :
    readEvent st [] true = .fatal (.notWellFormed .truncated) := by
  have hs : st.stack.isEmpty = false := by
    cases hs : st.stack with
    | nil => exact absurd hs h
    | cons a l => rfl
  unfold readEvent
  by_cases hd : st.declAllowed
  · simp [hd]
  · simp [hd, hs, dispatch, contentDispatch]

/-- C6: when eof is reached while the open-element stack is non-empty,
`read()` returns a fatal truncated-document well-formedness error and
records it as sticky; the input is never treated as a complete
document or as end-of-stream.  Stated for every parser state with an
exhausted buffer at eof, for every such `FeedParser`, and for the
spec's concrete example `<a><b>text` (whose drain ends in the
truncated error rather than in `.ok`). -/
theorem truncated_document_fatal :
    (∀ st : PState, st.stack ≠ [] →
        readEvent st [] true = .fatal (.notWellFormed .truncated)) ∧
    (∀ fp : FeedParser, fp.err = none → fp.st.pending = [] → fp.st.stack ≠ [] →
        fp.bufq.flatten = [] → fp.bufq.eof = true →
        fp.read = ({ fp with err := some (.notWellFormed .truncated) },
                   .error (.notWellFormed .truncated))) ∧
    parseDoc (bs "<a><b>text") 6
      = some ([.startElement ⟨none, bs "a"⟩ [],
               .startElement ⟨none, bs "b"⟩ [],
               .text (bs "text")], .error (.notWellFormed .truncated)) := by
  refine ⟨readEvent_eof_open_stack, ?_, by rfl⟩
  intro fp he hp hs hf heof
  unfold FeedParser.read
  rw [he, hp, hf, heof, readEvent_eof_open_stack fp.st hs]
  rfl

/-- Witness for the universally quantified parts of
`truncated_document_fatal`, at a concrete truncated parser state. -/
theorem truncated_document_fatal_witness :
    readEvent ⟨false, true, [⟨bs "a", ⟨none, bs "a"⟩⟩], [[]], []⟩ [] true
        = .fatal (.notWellFormed .truncated) ∧
    FeedParser.read ⟨⟨[], true⟩, ⟨false, true, [⟨bs "a", ⟨none, bs "a"⟩⟩], [[]], []⟩, none⟩
        = (⟨⟨[], true⟩, ⟨false, true, [⟨bs "a", ⟨none, bs "a"⟩⟩], [[]], []⟩,
            some (.notWellFormed .truncated)⟩,
           .error (.notWellFormed .truncated)) :=
  ⟨truncated_document_fatal.1 _ (by simp),
   truncated_document_fatal.2.1 _ rfl rfl (by simp) rfl rfl⟩

/-- A duplicate-free check by `hasDup` yields pairwise-distinct
elements. -/
theorem hasDup_false_pairwise [BEq α] [LawfulBEq α] :
    ∀ l : List α, hasDup l = false → l.Pairwise (fun a b => a ≠ b)
  | [], _ => List.Pairwise.nil
  | x :: r, h => by
    simp only [hasDup, Bool.or_eq_false_iff] at h
    refine List.Pairwise.cons ?_ (hasDup_false_pairwise r h.2)
    intro y hy hxy
    have hc : r.contains x = true := List.elem_eq_true_of_mem (hxy ▸ hy)
    rw [hc] at h
    exact absurd h.1 (by simp)

/-- C7: a start tag two of whose attributes resolve, under the scope in
effect when the tag closes, to the same (namespace URI, local name)
pair is rejected with a fatal well-formedness error instead of
producing a StartElement.  Stated as: whenever start-tag processing
does succeed, the emitted attributes have pairwise distinct resolved
keys; together with the spec's concrete example, whose lexical
prefixes differ but whose resolved keys coincide, which yields the
duplicate-attribute error and no StartElement event. -/
theorem duplicate_resolved_attributes_fatal :
    (∀ (scopes : List Scope) (nm : List Nat) (ras : List (List Nat × List Nat))
        (q : QName) (resAttrs : List (QName × List Nat)) (ns : Scope),
        finishStartTag scopes nm ras = .ok (q, resAttrs, ns) →
        (resAttrs.map attrKey).Pairwise (fun a b => a ≠ b)) ∧
    parseDoc (bs "<a xmlns:p=\"urn:x\" p:n=\"1\" xmlns:q=\"urn:x\" q:n=\"2\"/>") 3
      = some ([], .error (.notWellFormed .duplicateAttribute)) := by
  refine ⟨?_, by rfl⟩
  intro scopes nm ras q resAttrs ns h
  unfold finishStartTag at h
  split at h
  · exact absurd h (by simp)
  · split at h
    · exact absurd h (by simp)
    · split at h
      · exact absurd h (by simp)
      · dsimp only at h
        split at h
        · exact absurd h (by simp)
        · split at h
          · exact absurd h (by simp)
          · split at h
            · exact absurd h (by simp)
            · rename_i hdup
              injection h with h'
              injection h' with ha hb
              injection hb with hb1 hb2
              exact hb1 ▸ hasDup_false_pairwise _ (by simpa using hdup)

/-- Witness for `duplicate_resolved_attributes_fatal`: a concrete start
tag with one attribute is processed successfully, and the theorem
yields the pairwise-distinct property of its resolved keys. -/
theorem duplicate_resolved_attributes_fatal_witness :
    (([(⟨none, bs "x"⟩, bs "1")] : List (QName × List Nat)).map attrKey).Pairwise
      (fun a b => a ≠ b) :=
  duplicate_resolved_attributes_fatal.1 [] (bs "a") [(bs "x", bs "1")]
    ⟨none, bs "a"⟩ [(⟨none, bs "x"⟩, bs "1")] [] rfl

/-- C5: feeding after the eof marker is a contract failure for every
chunk value: `BufferQueue::push` after the eof flag is set (or after a
successful `push_eof`) panics — modelled as `none` — rather than
enqueuing the chunk, and so does `FeedParser::feed` after
`feed_eof`. -/
theorem feed_after_eof_contract_failure :
    (∀ (q : BufferQueue) (c : List Nat), q.eof = true → q.push c = none) ∧
    (∀ (q q2 : BufferQueue) (c : List Nat), q.push_eof = some q2 → q2.push c = none) ∧
    (∀ (fp fp2 : FeedParser) (c : List Nat), fp.feed_eof = some fp2 → fp2.feed c = none) := by
  refine ⟨?_, ?_, ?_⟩
  · intro q c h
    simp [BufferQueue.push, h]
  · intro q q2 c h
    unfold BufferQueue.push_eof at h
    split at h
    · exact absurd h (by simp)
    · cases h
      simp [BufferQueue.push]
  · intro fp fp2 c h
    unfold FeedParser.feed_eof at h
    split at h
    · rename_i q hq
      unfold BufferQueue.push_eof at hq
      split at hq
      · exact absurd hq (by simp)
      · cases hq
        cases h
        simp [FeedParser.feed, BufferQueue.push]
    · exact absurd h (by simp)

/-- Witness for `feed_after_eof_contract_failure` at a concrete queue
and parser. -/
theorem feed_after_eof_contract_failure_witness :
    BufferQueue.push ⟨[], true⟩ (bs "x") = none ∧
    BufferQueue.push ⟨[bs "a"], true⟩ (bs "y") = none ∧
    FeedParser.feed ⟨⟨[], true⟩, PState.init, none⟩ (bs "z") = none :=
  ⟨feed_after_eof_contract_failure.1 ⟨[], true⟩ (bs "x") rfl,
   feed_after_eof_contract_failure.2.1 ⟨[bs "a"], false⟩ ⟨[bs "a"], true⟩ (bs "y") rfl,
   feed_after_eof_contract_failure.2.2 ⟨⟨[], false⟩, PState.init, none⟩
     ⟨⟨[], true⟩, PState.init, none⟩ (bs "z") rfl⟩

/-- C3: when the buffered data is insufficient to produce the next
event and eof has not been fed, `read()` returns an I/O error of kind
WouldBlock and leaves the parser completely unchanged — nothing is
consumed irrevocably, so repeating the call with no new bytes returns
the same WouldBlock result, and feeding more data afterwards resumes
parsing exactly as if the failed attempt had never happened. -/
theorem wouldblock_read_side_effect_free :
    ∀ (fp fp2 : FeedParser), fp.read = (fp2, .error (.io .wouldBlock)) →
      fp2 = fp ∧ fp2.read = fp.read := by
  intro fp fp2 h
  have hfp : fp2 = fp := by
    unfold FeedParser.read at h
    split at h
    · injection h with h1 h2
      exact h1.symm
    · split at h
      · injection h with h1 h2
        exact absurd h2 (by simp)
      · split at h
        · injection h with h1 h2
          exact absurd h2 (by simp)
        · injection h with h1 h2
          exact absurd h2 (by simp)
        · injection h with h1 h2
          exact h1.symm
        · rename_i fe hre
          injection h with h1 h2
          cases fe <;> simp [FErr.toErr] at h2
  subst hfp
  exact ⟨rfl, rfl⟩

/-- Witness for `wouldblock_read_side_effect_free`: a parser fed the
incomplete fragment `<a` without eof; its read would-blocks and
changes nothing. -/
theorem wouldblock_read_side_effect_free_witness :
    (⟨⟨[bs "<a"], false⟩, PState.init, none⟩ : FeedParser)
        = ⟨⟨[bs "<a"], false⟩, PState.init, none⟩ ∧
      FeedParser.read ⟨⟨[bs "<a"], false⟩, PState.init, none⟩
        = FeedParser.read ⟨⟨[bs "<a"], false⟩, PState.init, none⟩ :=
  wouldblock_read_side_effect_free ⟨⟨[bs "<a"], false⟩, PState.init, none⟩ _ rfl

/-- C2: once a `read()` has returned a fatal (non-I/O) error, every
subsequent `read()` on that instance returns the same error again,
consuming no input and performing no state transition (the returned
parser is the very same failed instance) — for the `FeedParser` and
the `PullParser` alike. -/
theorem fatal_error_sticky :
    (∀ (fp fp2 : FeedParser) (e : Err), fp.read = (fp2, .error e) → e.isFatal = true →
        fp2.read = (fp2, .error e)) ∧
    (∀ (pp pp2 : PullParser) (e : Err), pp.read = (pp2, .error e) → e.isFatal = true →
        pp2.read = (pp2, .error e)) := by
  constructor
  · intro fp fp2 e h hfatal
    unfold FeedParser.read at h
    split at h
    · rename_i e0 herr
      injection h with h1 h2
      injection h2 with h3
      subst h3
      subst h1
      simp [FeedParser.read, herr]
    · split at h
      · injection h with h1 h2
        exact absurd h2 (by simp)
      · split at h
        · injection h with h1 h2
          exact absurd h2 (by simp)
        · injection h with h1 h2
          exact absurd h2 (by simp)
        · injection h with h1 h2
          injection h2 with h3
          rw [← h3] at hfatal
          simp [Err.isFatal] at hfatal
        · rename_i fe hre
          injection h with h1 h2
          injection h2 with h3
          subst h3
          subst h1
          simp [FeedParser.read]
  · intro pp pp2 e h hfatal
    unfold PullParser.read at h
    split at h
    · rename_i e0 herr
      injection h with h1 h2
      injection h2 with h3
      subst h3
      subst h1
      simp [PullParser.read, herr]
    · split at h
      · injection h with h1 h2
        exact absurd h2 (by simp)
      · split at h
        · injection h with h1 h2
          exact absurd h2 (by simp)
        · injection h with h1 h2
          exact absurd h2 (by simp)
        · injection h with h1 h2
          injection h2 with h3
          rw [← h3] at hfatal
          simp [Err.isFatal] at hfatal
        · rename_i fe hre
          injection h with h1 h2
          injection h2 with h3
          subst h3
          subst h1
          simp [PullParser.read]

/-- Witness for `fatal_error_sticky`: feeding `<!` (a forbidden DTD or
comment opener) produces a fatal restriction error; the failed
instances return it again. -/
theorem fatal_error_sticky_witness :
    FeedParser.read ⟨⟨[bs "<!"], false⟩, PState.init, some .restriction⟩
        = (⟨⟨[bs "<!"], false⟩, PState.init, some .restriction⟩, .error .restriction) ∧
      PullParser.read ⟨bs "<!", PState.init, some .restriction⟩
        = (⟨bs "<!", PState.init, some .restriction⟩, .error .restriction) :=
  ⟨fatal_error_sticky.1 ⟨⟨[bs "<!"], false⟩, PState.init, none⟩ _ _ rfl rfl,
   fatal_error_sticky.2 ⟨bs "<!", PState.init, none⟩ _ _ rfl rfl⟩

/-- C8: names in emitted events are resolved against the innermost
enclosing declarations in scope, and closing a nested element that
redeclared a prefix restores the ancestor's binding.  Stated as:
(1) a prefix declared in the innermost scope layer resolves to that
layer's binding; (2) a prefix not declared there falls through to the
enclosing layers; (3) processing an end tag pops exactly the innermost
scope layer together with its element frame; and (4) the concrete
nested-redeclaration document, in which `p:i` (and the attribute
`p:a`) resolve to the inner binding `urn:b` while the sibling `p:j`
after the nested element closes resolves to the restored outer
binding `urn:a`. -/
theorem namespace_innermost_resolution_and_restore :
    (∀ (s : Scope) (scopes : List Scope) (p : List Nat) (v : Option (List Nat)),
        assocFind s p = some v → lookupPfx (s :: scopes) p = some v) ∧
    (∀ (s : Scope) (scopes : List Scope) (p : List Nat),
        assocFind s p = none → lookupPfx (s :: scopes) p = lookupPfx scopes p) ∧
    (∀ (st : PState) (buf : List Nat) (eofb : Bool) (q : QName) (st2 : PState)
        (rest : List Nat),
        endTagPath st buf eofb = .ev (.endElement q) st2 rest →
        st2.scopes = st.scopes.drop 1 ∧ st2.stack = st.stack.drop 1) ∧
    parseDoc (bs "<r xmlns:p=\"urn:a\"><c xmlns:p=\"urn:b\" p:a=\"x\"><p:i/></c><p:j/></r>") 10
      = some ([.startElement ⟨none, bs "r"⟩ [],
               .startElement ⟨none, bs "c"⟩ [(⟨some (bs "urn:b"), bs "a"⟩, bs "x")],
               .startElement ⟨some (bs "urn:b"), bs "i"⟩ [],
               .endElement ⟨some (bs "urn:b"), bs "i"⟩,
               .endElement ⟨none, bs "c"⟩,
               .startElement ⟨some (bs "urn:a"), bs "j"⟩ [],
               .endElement ⟨some (bs "urn:a"), bs "j"⟩,
               .endElement ⟨none, bs "r"⟩], .ok ()) := by
  refine ⟨?_, ?_, ?_, by rfl⟩
  · intro s scopes p v h
    simp [lookupPfx, h]
  · intro s scopes p h
    simp [lookupPfx, h]
  · intro st buf eofb q st2 rest h
    unfold endTagPath at h
    split at h
    · split at h <;> exact absurd h (by simp)
    · exact absurd h (by simp)
    · split at h
      · split at h <;> exact absurd h (by simp)
      · exact absurd h (by simp)
      · split at h
        · exact absurd h (by simp)
        · rename_i f stk hstk
          split at h
          · injection h with h1 h2 h3
            cases h2
            exact ⟨rfl, by simp [hstk]⟩
          · exact absurd h (by simp)

/-- Witness for `namespace_innermost_resolution_and_restore` at concrete
scopes and a concrete end tag. -/
theorem namespace_innermost_resolution_and_restore_witness :
    lookupPfx ([(bs "p", some (bs "u"))] :: [[(bs "p", some (bs "w"))]]) (bs "p")
        = some (some (bs "u")) ∧
    lookupPfx ([] :: [[(bs "p", some (bs "w"))]]) (bs "p")
        = lookupPfx [[(bs "p", some (bs "w"))]] (bs "p") ∧
    (([] : List Scope) = List.drop 1 [([] : Scope)] ∧
     ([] : List Frame) = List.drop 1 [(⟨bs "a", ⟨none, bs "a"⟩⟩ : Frame)]) :=
  ⟨namespace_innermost_resolution_and_restore.1 [(bs "p", some (bs "u"))]
      [[(bs "p", some (bs "w"))]] (bs "p") (some (bs "u")) rfl,
   namespace_innermost_resolution_and_restore.2.1 [] [[(bs "p", some (bs "w"))]] (bs "p") rfl,
   namespace_innermost_resolution_and_restore.2.2.1
      ⟨false, true, [⟨bs "a", ⟨none, bs "a"⟩⟩], [[]], []⟩ (bs "a>") true
      ⟨none, bs "a"⟩ ⟨false, true, [], [], []⟩ [] rfl⟩

theorem skipWs_ne_nil_append (ext : List Nat) :
    ∀ l : List Nat, skipWs l ≠ [] → skipWs (l ++ ext) = skipWs l ++ ext := by
  intro l
  induction l with
  | nil => intro h; exact absurd rfl h
  | cons b t ih =>
    intro h
    simp only [skipWs, List.cons_append] at h ⊢
    split_ifs at h ⊢ with hb
    · exact ih h
    · rfl

theorem parseNameGo_done_append (ext : List Nat) :
    ∀ (l acc x r : List Nat), parseNameGo acc l = .done x r →
      parseNameGo acc (l ++ ext) = .done x (r ++ ext) := by
  intro l
  induction l with
  | nil => intro acc x r h; simp [parseNameGo] at h
  | cons b t ih =>
    intro acc x r h
    simp only [parseNameGo, List.cons_append] at h ⊢
    split_ifs at h ⊢
    all_goals first
      | exact ih _ _ _ h
      | (cases h; try rfl)

theorem parseNameGo_err_append (ext : List Nat) :
    ∀ (l acc : List Nat) (e : FErr), parseNameGo acc l = .err e →
      parseNameGo acc (l ++ ext) = .err e := by
  intro l
  induction l with
  | nil => intro acc e h; simp [parseNameGo] at h
  | cons b t ih =>
    intro acc e h
    simp only [parseNameGo, List.cons_append] at h ⊢
    split_ifs at h ⊢
    all_goals first
      | exact ih _ _ h
      | exact h

theorem attrsGo_done_append (ext : List Nat) :
    ∀ (l : List Nat) (s : AttrSt) (acc : List (List Nat × List Nat))
      (x : List (List Nat × List Nat) × Bool) (r : List Nat),
      attrsGo s acc l = .done x r → attrsGo s acc (l ++ ext) = .done x (r ++ ext) := by
  intro l
  induction l with
  | nil => intro s acc x r h; simp [attrsGo] at h
  | cons b t ih =>
    intro s acc x r h
    cases s <;> simp only [attrsGo, List.cons_append] at h ⊢ <;> split_ifs at h ⊢
    all_goals first
      | exact ih _ _ _ _ h
      | (cases h; try rfl)

theorem attrsGo_err_append (ext : List Nat) :
    ∀ (l : List Nat) (s : AttrSt) (acc : List (List Nat × List Nat)) (e : FErr),
      attrsGo s acc l = .err e → attrsGo s acc (l ++ ext) = .err e := by
  intro l
  induction l with
  | nil => intro s acc e h; simp [attrsGo] at h
  | cons b t ih =>
    intro s acc e h
    cases s <;> simp only [attrsGo, List.cons_append] at h ⊢ <;> split_ifs at h ⊢
    all_goals first
      | exact ih _ _ _ h
      | exact h

theorem closeTagGo_done_append (ext : List Nat) :
    ∀ (l : List Nat) (r : List Nat), closeTagGo l = .done () r →
      closeTagGo (l ++ ext) = .done () (r ++ ext) := by
  intro l
  induction l with
  | nil => intro r h; simp [closeTagGo] at h
  | cons b t ih =>
    intro r h
    simp only [closeTagGo, List.cons_append] at h ⊢
    split_ifs at h ⊢
    all_goals first
      | exact ih _ h
      | (cases h; try rfl)

theorem closeTagGo_err_append (ext : List Nat) :
    ∀ (l : List Nat) (e : FErr), closeTagGo l = .err e → closeTagGo (l ++ ext) = .err e := by
  intro l
  induction l with
  | nil => intro e h; simp [closeTagGo] at h
  | cons b t ih =>
    intro e h
    simp only [closeTagGo, List.cons_append] at h ⊢
    split_ifs at h ⊢
    all_goals first
      | exact ih _ h
      | exact h

theorem declGo_done_append (ext : List Nat) :
    ∀ (l : List Nat) (s : DeclSt) (acc x : List (List Nat × List Nat)) (r : List Nat),
      declGo s acc l = .done x r → declGo s acc (l ++ ext) = .done x (r ++ ext) := by
  intro l
  induction l with
  | nil => intro s acc x r h; simp [declGo] at h
  | cons b t ih =>
    intro s acc x r h
    cases s <;> simp only [declGo, List.cons_append] at h ⊢ <;> split_ifs at h ⊢
    all_goals first
      | exact ih _ _ _ _ h
      | (cases h; try rfl)

theorem declGo_err_append (ext : List Nat) :
    ∀ (l : List Nat) (s : DeclSt) (acc : List (List Nat × List Nat)) (e : FErr),
      declGo s acc l = .err e → declGo s acc (l ++ ext) = .err e := by
  intro l
  induction l with
  | nil => intro s acc e h; simp [declGo] at h
  | cons b t ih =>
    intro s acc e h
    cases s <;> simp only [declGo, List.cons_append] at h ⊢ <;> split_ifs at h ⊢
    all_goals first
      | exact ih _ _ _ h
      | exact h

theorem textRawGo_toMarkup_append (ext : List Nat) :
    ∀ (l acc d r : List Nat), textRawGo acc l = .toMarkup d r →
      textRawGo acc (l ++ ext) = .toMarkup d (r ++ ext) := by
  intro l
  induction l with
  | nil => intro acc d r h; simp [textRawGo] at h
  | cons b t ih =>
    intro acc d r h
    simp only [textRawGo, List.cons_append] at h ⊢
    split_ifs at h ⊢
    · cases h; rfl
    · exact ih _ _ _ h

/-- Extending the buffer extends the unconsumed rest of a successful
outcome and leaves every other outcome unchanged. -/
def ROut.extend (o : ROut) (ext : List Nat) : ROut :=
  match o with
  | .ev e st2 r => .ev e st2 (r ++ ext)
  | .eod => .eod
  | .needMore => .needMore
  | .fatal e => .fatal e

theorem declPath_extend (st : PState) (l ext : List Nat) (eofb : Bool)
    (h : declPath st l false ≠ .needMore) :
    declPath st (l ++ ext) eofb = (declPath st l false).extend ext := by
  cases hn : parseNameGo [] l with
  | more => exact absurd (by simp [declPath, hn]) h
  | err e2 => simp [declPath, hn, parseNameGo_err_append ext l [] e2 hn, ROut.extend]
  | done nm rest =>
    simp only [declPath, hn, parseNameGo_done_append ext l [] nm rest hn]
    by_cases hx : (nm == xmlPfxB) = true
    · simp only [hx, if_true]
      cases hd : declGo (.between true) [] rest with
      | more => exact absurd (by simp [declPath, hn, hx, hd]) h
      | err e2 => simp [hd, declGo_err_append ext rest _ [] e2 hd, ROut.extend]
      | done ps rest2 =>
        simp only [hd, declGo_done_append ext rest _ [] ps rest2 hd]
        cases hv : validateDecl ps with
        | error e2 => simp [hv, ROut.extend]
        | ok v => simp [hv, ROut.extend]
    · simp [hx, ROut.extend]

theorem startTagPath_extend (st : PState) (l ext : List Nat) (eofb : Bool)
    (h : startTagPath st l false ≠ .needMore) :
    startTagPath st (l ++ ext) eofb = (startTagPath st l false).extend ext := by
  cases hn : parseNameGo [] l with
  | more => exact absurd (by simp [startTagPath, hn]) h
  | err e2 => simp [startTagPath, hn, parseNameGo_err_append ext l [] e2 hn, ROut.extend]
  | done nm rest =>
    simp only [startTagPath, hn, parseNameGo_done_append ext l [] nm rest hn]
    cases ha : attrsGo (.between true) [] rest with
    | more => exact absurd (by simp [startTagPath, hn, ha]) h
    | err e2 => simp [ha, attrsGo_err_append ext rest _ [] e2 ha, ROut.extend]
    | done pr rest2 =>
      obtain ⟨ras, selfClose⟩ := pr
      simp only [ha, attrsGo_done_append ext rest _ [] (ras, selfClose) rest2 ha]
      cases hf : finishStartTag st.scopes nm ras with
      | error e2 => simp [hf, ROut.extend]
      | ok trip =>
        obtain ⟨q, resAttrs, newScope⟩ := trip
        cases selfClose <;> simp [hf, ROut.extend]

theorem endTagPath_extend (st : PState) (l ext : List Nat) (eofb : Bool)
    (h : endTagPath st l false ≠ .needMore) :
    endTagPath st (l ++ ext) eofb = (endTagPath st l false).extend ext := by
  cases hn : parseNameGo [] l with
  | more => exact absurd (by simp [endTagPath, hn]) h
  | err e2 => simp [endTagPath, hn, parseNameGo_err_append ext l [] e2 hn, ROut.extend]
  | done nm rest =>
    simp only [endTagPath, hn, parseNameGo_done_append ext l [] nm rest hn]
    cases hc : closeTagGo rest with
    | more => exact absurd (by simp [endTagPath, hn, hc]) h
    | err e2 => simp [hc, closeTagGo_err_append ext rest e2 hc, ROut.extend]
    | done u rest2 =>
      cases u
      simp only [hc, closeTagGo_done_append ext rest rest2 hc]
      cases hs : st.stack with
      | nil => simp [ROut.extend]
      | cons f stk => by_cases hnm : (nm == f.rawName) = true <;> simp [hnm, ROut.extend]

theorem textPath_extend (st : PState) (l ext : List Nat) (eofb : Bool)
    (h : textPath st l false ≠ .needMore) :
    textPath st (l ++ ext) eofb = (textPath st l false).extend ext := by
  cases ht : textRawGo [] l with
  | toMarkup raw rest =>
    simp only [textPath, ht, textRawGo_toMarkup_append ext l [] raw rest ht]
    cases hd : decodeRefs raw with
    | error e2 => simp [hd, ROut.extend]
    | ok dat => simp [hd, ROut.extend]
  | toEnd raw => exact absurd (by simp [textPath, ht]) h


theorem contentLt_extend (st : PState) (r ext : List Nat) (eofb : Bool)
    (h : contentLt st r false ≠ .needMore) :
    contentLt st (r ++ ext) eofb = (contentLt st r false).extend ext := by
  cases r with
  | nil => exact absurd (by simp [contentLt]) h
  | cons c r2 =>
    by_cases h47 : (c == 47) = true
    · have h2 : endTagPath st r2 false ≠ .needMore := by
        intro hq; apply h; simp [contentLt, h47, hq]
      simp only [List.cons_append, contentLt, h47, if_true]
      exact endTagPath_extend st r2 ext eofb h2
    · by_cases h63 : (c == 63) = true
      · simp [contentLt, h47, h63, ROut.extend]
      · by_cases h33 : (c == 33) = true
        · simp [contentLt, h47, h63, h33, ROut.extend]
        · by_cases hns : isNameStart c = true
          · have h2 : startTagPath st (c :: r2) false ≠ .needMore := by
              intro hq; apply h; simp [contentLt, h47, h63, h33, hns, hq]
            have hx := startTagPath_extend st (c :: r2) ext eofb h2
            simp only [List.cons_append] at hx
            simp only [List.cons_append, contentLt, h47, h63, h33, hns,
              if_true, if_false, Bool.false_eq_true]
            exact hx
          · simp [contentLt, h47, h63, h33, hns, ROut.extend]

theorem contentDispatch_extend (st : PState) (l ext : List Nat) (eofb : Bool)
    (h : contentDispatch st l false ≠ .needMore) :
    contentDispatch st (l ++ ext) eofb = (contentDispatch st l false).extend ext := by
  cases l with
  | nil => exact absurd (by simp [contentDispatch]) h
  | cons b r =>
    by_cases hb : (b == 60) = true
    · have h2 : contentLt st r false ≠ .needMore := by
        intro hq; apply h; simp [contentDispatch, hb, hq]
      simp only [List.cons_append, contentDispatch, hb, if_true]
      exact contentLt_extend st r ext eofb h2
    · have h2 : textPath st (b :: r) false ≠ .needMore := by
        intro hq; apply h; simp [contentDispatch, hb, hq]
      have hx := textPath_extend st (b :: r) ext eofb h2
      simp only [List.cons_append] at hx
      simp only [List.cons_append, contentDispatch, hb, if_false, Bool.false_eq_true]
      exact hx

theorem prologLt_extend (st : PState) (r ext : List Nat) (eofb : Bool)
    (h : prologLt st r false ≠ .needMore) :
    prologLt st (r ++ ext) eofb = (prologLt st r false).extend ext := by
  cases r with
  | nil => exact absurd (by simp [prologLt]) h
  | cons c r2 =>
    by_cases h63 : (c == 63) = true
    · simp [prologLt, h63, ROut.extend]
    · by_cases h33 : (c == 33) = true
      · simp [prologLt, h63, h33, ROut.extend]
      · by_cases h47 : (c == 47) = true
        · simp [prologLt, h63, h33, h47, ROut.extend]
        · by_cases hns : isNameStart c = true
          · have h2 : startTagPath st (c :: r2) false ≠ .needMore := by
              intro hq; apply h; simp [prologLt, h63, h33, h47, hns, hq]
            have hx := startTagPath_extend st (c :: r2) ext eofb h2
            simp only [List.cons_append] at hx
            simp only [List.cons_append, prologLt, h63, h33, h47, hns,
              if_true, if_false, Bool.false_eq_true]
            exact hx
          · simp [prologLt, h63, h33, h47, hns, ROut.extend]

theorem prologDispatch_extend (st : PState) (l ext : List Nat) (eofb : Bool)
    (h : prologDispatch st l false ≠ .needMore) :
    prologDispatch st (l ++ ext) eofb = (prologDispatch st l false).extend ext := by
  cases hsw : skipWs l with
  | nil => exact absurd (by simp [prologDispatch, hsw]) h
  | cons b r =>
    have hsw2 : skipWs (l ++ ext) = b :: (r ++ ext) := by
      rw [skipWs_ne_nil_append ext l (by simp [hsw]), hsw]
      rfl
    by_cases hb : (b == 60) = true
    · by_cases hroot : st.rootSeen = true
      · simp [prologDispatch, hsw, hsw2, hb, hroot, ROut.extend]
      · have h2 : prologLt st r false ≠ .needMore := by
          intro hq; apply h; simp [prologDispatch, hsw, hb, hroot, hq]
        have hx := prologLt_extend st r ext eofb h2
        simp only [prologDispatch, hsw, hsw2, hb, hroot, if_true, if_false,
          Bool.false_eq_true]
        exact hx
    · simp [prologDispatch, hsw, hsw2, hb, ROut.extend]

theorem dispatch_extend (st : PState) (l ext : List Nat) (eofb : Bool)
    (h : dispatch st l false ≠ .needMore) :
    dispatch st (l ++ ext) eofb = (dispatch st l false).extend ext := by
  by_cases hs : st.stack.isEmpty = true
  · have h2 : prologDispatch st l false ≠ .needMore := by
      intro hq; apply h; simp [dispatch, hs, hq]
    simp only [dispatch, hs, if_true]
    exact prologDispatch_extend st l ext eofb h2
  · have h2 : contentDispatch st l false ≠ .needMore := by
      intro hq; apply h; simp [dispatch, hs, hq]
    simp only [dispatch, hs, if_false, Bool.false_eq_true]
    exact contentDispatch_extend st l ext eofb h2

theorem declLt_extend (st : PState) (r ext : List Nat) (eofb : Bool) (buf : List Nat)
    (h : declLt st r false buf ≠ .needMore) :
    declLt st (r ++ ext) eofb (buf ++ ext) = (declLt st r false buf).extend ext := by
  cases r with
  | nil => exact absurd (by simp [declLt]) h
  | cons c r2 =>
    by_cases h63 : (c == 63) = true
    · have h2 : declPath st r2 false ≠ .needMore := by
        intro hq; apply h; simp [declLt, h63, hq]
      simp only [List.cons_append, declLt, h63, if_true]
      exact declPath_extend st r2 ext eofb h2
    · have h2 : dispatch st buf false ≠ .needMore := by
        intro hq; apply h; simp [declLt, h63, hq]
      simp only [List.cons_append, declLt, h63, if_false, Bool.false_eq_true]
      exact dispatch_extend st buf ext eofb h2

theorem readEvent_extend (st : PState) (l ext : List Nat) (eofb : Bool)
    (h : readEvent st l false ≠ .needMore) :
    readEvent st (l ++ ext) eofb = (readEvent st l false).extend ext := by
  by_cases hd : st.declAllowed = true
  · cases l with
    | nil => exact absurd (by simp [readEvent, hd]) h
    | cons b r =>
      by_cases hb : (b == 60) = true
      · have h2 : declLt st r false (b :: r) ≠ .needMore := by
          intro hq; apply h; simp [readEvent, hd, hb, hq]
        have hx := declLt_extend st r ext eofb (b :: r) h2
        simp only [List.cons_append] at hx
        simp only [List.cons_append, readEvent, hd, hb, if_true]
        exact hx
      · have h2 : dispatch st (b :: r) false ≠ .needMore := by
          intro hq; apply h; simp [readEvent, hd, hb, hq]
        have hx := dispatch_extend st (b :: r) ext eofb h2
        simp only [List.cons_append] at hx
        simp only [List.cons_append, readEvent, hd, hb, if_false, Bool.false_eq_true]
        exact hx
  · have h2 : dispatch st l false ≠ .needMore := by
      intro hq; apply h; simp [readEvent, hd, hq]
    simp only [readEvent, hd, if_false, Bool.false_eq_true]
    exact dispatch_extend st l ext eofb h2

theorem foldr_append_acc : ∀ (cs : List (List Nat)) (acc : List Nat),
    cs.foldr (· ++ ·) acc = cs.foldr (· ++ ·) [] ++ acc := by
  intro cs
  induction cs with
  | nil => intro acc; simp
  | cons c cs ih =>
    intro acc
    rw [List.foldr_cons, List.foldr_cons, ih acc, List.append_assoc]

theorem flatten_push (cs : List (List Nat)) (c : List Nat) (e : Bool) :
    BufferQueue.flatten ⟨cs ++ [c], e⟩ = BufferQueue.flatten ⟨cs, e⟩ ++ c := by
  show (cs ++ [c]).foldr (· ++ ·) [] = cs.foldr (· ++ ·) [] ++ c
  rw [List.foldr_append, List.foldr_cons, List.foldr_nil, List.append_nil,
    foldr_append_acc cs c]

theorem consumeChunks_flatten : ∀ (cs : List (List Nat)) (n : Nat),
    (consumeChunks cs n).foldr (· ++ ·) [] = (cs.foldr (· ++ ·) []).drop n := by
  intro cs
  induction cs with
  | nil => intro n; simp [consumeChunks]
  | cons c cs ih =>
    intro n
    simp only [consumeChunks, List.foldr_cons]
    split_ifs with hn
    · rw [List.foldr_cons, List.drop_append_eq_append_drop,
        Nat.sub_eq_zero_of_le (le_of_lt hn), List.drop_zero]
    · rw [ih, List.drop_append_eq_append_drop,
        List.drop_eq_nil_of_le (le_of_not_lt hn), List.nil_append]

theorem consume_flatten (q : BufferQueue) (n : Nat) :
    (q.consume n).flatten = q.flatten.drop n :=
  consumeChunks_flatten q.chunks n

theorem consume_eof (q : BufferQueue) (n : Nat) : (q.consume n).eof = q.eof := rfl

/-- Two front-end states are observationally equal when they agree on
the parser state, the sticky error, the logical byte stream and the
eof flag — everything `read` can depend on; only the chunk layout of
the queues may differ. -/
def ObsEq (a b : FeedParser) : Prop :=
  a.st = b.st ∧ a.err = b.err ∧ a.bufq.flatten = b.bufq.flatten ∧ a.bufq.eof = b.bufq.eof

theorem read_err (fp : FeedParser) (e : Err) (h : fp.err = some e) :
    fp.read = (fp, .error e) := by
  unfold FeedParser.read
  rw [h]

theorem read_pending (fp : FeedParser) (ev : Event) (ps : List Event)
    (h1 : fp.err = none) (h2 : fp.st.pending = ev :: ps) :
    fp.read = ({ fp with st := { fp.st with pending := ps } }, .ok (some ev)) := by
  unfold FeedParser.read
  rw [h1, h2]

theorem read_ev (fp : FeedParser) (e : Event) (st2 : PState) (rest : List Nat)
    (h1 : fp.err = none) (h2 : fp.st.pending = [])
    (h3 : readEvent fp.st fp.bufq.flatten fp.bufq.eof = .ev e st2 rest) :
    fp.read = ({ fp with
                  st := st2
                  bufq := fp.bufq.consume (fp.bufq.flatten.length - rest.length) },
               .ok (some e)) := by
  unfold FeedParser.read
  rw [h1, h2, h3]

theorem read_eod (fp : FeedParser)
    (h1 : fp.err = none) (h2 : fp.st.pending = [])
    (h3 : readEvent fp.st fp.bufq.flatten fp.bufq.eof = .eod) :
    fp.read = (fp, .ok none) := by
  unfold FeedParser.read
  rw [h1, h2, h3]

theorem read_needMore (fp : FeedParser)
    (h1 : fp.err = none) (h2 : fp.st.pending = [])
    (h3 : readEvent fp.st fp.bufq.flatten fp.bufq.eof = .needMore) :
    fp.read = (fp, .error (.io .wouldBlock)) := by
  unfold FeedParser.read
  rw [h1, h2, h3]

theorem read_fatal (fp : FeedParser) (fe : FErr)
    (h1 : fp.err = none) (h2 : fp.st.pending = [])
    (h3 : readEvent fp.st fp.bufq.flatten fp.bufq.eof = .fatal fe) :
    fp.read = ({ fp with err := some fe.toErr }, .error fe.toErr) := by
  unfold FeedParser.read
  rw [h1, h2, h3]

theorem read_obs (a b : FeedParser) (h : ObsEq a b) :
    (a.read).2 = (b.read).2 ∧ ObsEq (a.read).1 (b.read).1 := by
  obtain ⟨hst, herr, hfl, heof⟩ := h
  cases he : b.err with
  | some e =>
    rw [read_err a e (by rw [herr, he]), read_err b e he]
    exact ⟨rfl, hst, herr, hfl, heof⟩
  | none =>
    cases hp : b.st.pending with
    | cons ev ps =>
      rw [read_pending a ev ps (by rw [herr, he]) (by rw [hst, hp]),
          read_pending b ev ps he hp]
      exact ⟨rfl, by simp [hst], herr, hfl, heof⟩
    | nil =>
      have hre0 : readEvent a.st a.bufq.flatten a.bufq.eof
          = readEvent b.st b.bufq.flatten b.bufq.eof := by rw [hst, hfl, heof]
      cases hre : readEvent b.st b.bufq.flatten b.bufq.eof with
      | ev e st2 rest =>
        rw [read_ev a e st2 rest (by rw [herr, he]) (by rw [hst, hp]) (hre0.trans hre),
            read_ev b e st2 rest he hp hre]
        refine ⟨rfl, rfl, herr, ?_, ?_⟩
        · simp only [consume_flatten, hfl]
        · simp only [consume_eof, heof]
      | eod =>
        rw [read_eod a (by rw [herr, he]) (by rw [hst, hp]) (hre0.trans hre),
            read_eod b he hp hre]
        exact ⟨rfl, hst, herr, hfl, heof⟩
      | needMore =>
        rw [read_needMore a (by rw [herr, he]) (by rw [hst, hp]) (hre0.trans hre),
            read_needMore b he hp hre]
        exact ⟨rfl, hst, herr, hfl, heof⟩
      | fatal fe =>
        rw [read_fatal a fe (by rw [herr, he]) (by rw [hst, hp]) (hre0.trans hre),
            read_fatal b fe he hp hre]
        exact ⟨rfl, hst, rfl, hfl, heof⟩

theorem drain_step_ev (n : Nat) (fp fp2 : FeedParser) (e : Event)
    (h : fp.read = (fp2, .ok (some e))) :
    drain (n + 1) fp
      = match drain n fp2 with
        | some (evs, out) => some (e :: evs, out)
        | none => none := by
  conv_lhs => unfold drain
  rw [h]

theorem drain_step_none (n : Nat) (fp fp2 : FeedParser)
    (h : fp.read = (fp2, .ok none)) :
    drain (n + 1) fp = some ([], .ok ()) := by
  conv_lhs => unfold drain
  rw [h]

theorem drain_step_err (n : Nat) (fp fp2 : FeedParser) (e : Err)
    (h : fp.read = (fp2, .error e)) :
    drain (n + 1) fp = some ([], .error e) := by
  conv_lhs => unfold drain
  rw [h]

theorem readN_step_ev (n : Nat) (fp fp2 : FeedParser) (e : Event)
    (h : fp.read = (fp2, .ok (some e))) :
    readN (n + 1) fp = ((readN n fp2).1, e :: (readN n fp2).2) := by
  conv_lhs => unfold readN
  rw [h]

theorem readN_step_none (n : Nat) (fp fp2 : FeedParser)
    (h : fp.read = (fp2, .ok none)) :
    readN (n + 1) fp = readN n fp2 := by
  conv_lhs => unfold readN
  rw [h]

theorem readN_step_err (n : Nat) (fp fp2 : FeedParser) (e : Err)
    (h : fp.read = (fp2, .error e)) :
    readN (n + 1) fp = readN n fp2 := by
  conv_lhs => unfold readN
  rw [h]

theorem drain_obs :
    ∀ (f1 : Nat) (a b : FeedParser) (f2 : Nat) (r1 r2 : List Event × Except Err Unit),
      ObsEq a b → drain f1 a = some r1 → drain f2 b = some r2 → r1 = r2 := by
  intro f1
  induction f1 with
  | zero => intro a b f2 r1 r2 h h1 h2; simp [drain] at h1
  | succ n ih =>
    intro a b f2 r1 r2 h h1 h2
    obtain ⟨hsnd, hobs⟩ := read_obs a b h
    cases f2 with
    | zero => simp [drain] at h2
    | succ m =>
      rcases hae : a.read with ⟨afp, ares⟩
      rcases hbe : b.read with ⟨bfp, bres⟩
      rw [hae, hbe] at hsnd hobs
      simp only at hsnd hobs
      subst hsnd
      cases ares with
      | ok o =>
        cases o with
        | some e =>
          rw [drain_step_ev n a afp e hae] at h1
          rw [drain_step_ev m b bfp e hbe] at h2
          cases hda : drain n afp with
          | none => rw [hda] at h1; simp at h1
          | some p =>
            cases hdb : drain m bfp with
            | none => rw [hdb] at h2; simp at h2
            | some p2 =>
              rw [hda] at h1
              rw [hdb] at h2
              obtain ⟨pe, po⟩ := p
              obtain ⟨pe2, po2⟩ := p2
              injection h1 with h1
              injection h2 with h2
              have hpq := ih afp bfp m (pe, po) (pe2, po2) hobs hda hdb
              injection hpq with hq1 hq2
              rw [← h1, ← h2, hq1, hq2]
        | none =>
          rw [drain_step_none n a afp hae] at h1
          rw [drain_step_none m b bfp hbe] at h2
          rw [← Option.some.inj h1, ← Option.some.inj h2]
      | error e =>
        rw [drain_step_err n a afp e hae] at h1
        rw [drain_step_err m b bfp e hbe] at h2
        rw [← Option.some.inj h1, ← Option.some.inj h2]

theorem readN_len : ∀ (n : Nat) (fp : FeedParser), (readN n fp).2.length ≤ n := by
  intro n
  induction n with
  | zero => intro fp; simp [readN]
  | succ m ih =>
    intro fp
    rcases hae : fp.read with ⟨fp2, res⟩
    cases res with
    | ok o =>
      cases o with
      | some e =>
        rw [readN_step_ev m fp fp2 e hae]
        simpa using ih fp2
      | none =>
        rw [readN_step_none m fp fp2 hae]
        exact le_trans (ih fp2) (Nat.le_succ m)
    | error e =>
      rw [readN_step_err m fp fp2 e hae]
      exact le_trans (ih fp2) (Nat.le_succ m)

theorem drain_readN_decompose :
    ∀ (n : Nat) (fp fpn : FeedParser) (E : List Event) (f : Nat)
      (r : List Event × Except Err Unit),
      readN n fp = (fpn, E) → E.length = n → drain f fp = some r →
      ∃ f2, f = f2 + n ∧ ∃ rt, drain f2 fpn = some rt ∧ r = (E ++ rt.1, rt.2) := by
  intro n
  induction n with
  | zero =>
    intro fp fpn E f r hr hl hd
    simp only [readN] at hr
    injection hr with hr1 hr2
    subst hr1
    subst hr2
    exact ⟨f, rfl, r, hd, by simp⟩
  | succ m ih =>
    intro fp fpn E f r hr hl hd
    rcases hae : fp.read with ⟨fp2, res⟩
    cases res with
    | ok o =>
      cases o with
      | some e =>
        rw [readN_step_ev m fp fp2 e hae] at hr
        rcases hrm : readN m fp2 with ⟨fpE, evs⟩
        rw [hrm] at hr
        simp only at hr
        injection hr with hr1 hr2
        subst hr1
        subst hr2
        cases f with
        | zero => simp [drain] at hd
        | succ g =>
          rw [drain_step_ev g fp fp2 e hae] at hd
          cases hdg : drain g fp2 with
          | none => rw [hdg] at hd; simp at hd
          | some p =>
            rw [hdg] at hd
            injection hd with hd1
            obtain ⟨f2, hf2, rt, hrt, hreq⟩ :=
              ih fp2 fpE evs g p hrm (by simpa using hl) hdg
            refine ⟨f2, by omega, rt, hrt, ?_⟩
            rw [← hd1, hreq]
            simp
      | none =>
        rw [readN_step_none m fp fp2 hae] at hr
        have hlen := readN_len m fp2
        rw [hr] at hlen
        simp only at hlen
        rw [hl] at hlen
        omega
    | error e =>
      rw [readN_step_err m fp fp2 e hae] at hr
      have hlen := readN_len m fp2
      rw [hr] at hlen
      simp only at hlen
      rw [hl] at hlen
      omega

theorem feed_some (fp : FeedParser) (c : List Nat) (h : fp.bufq.eof = false) :
    fp.feed c = some { fp with bufq := ⟨fp.bufq.chunks ++ [c], fp.bufq.eof⟩ } := by
  unfold FeedParser.feed BufferQueue.push
  rw [h]
  rfl

theorem feed_eof_some (fp : FeedParser) (h : fp.bufq.eof = false) :
    fp.feed_eof = some { fp with bufq := ⟨fp.bufq.chunks, true⟩ } := by
  unfold FeedParser.feed_eof BufferQueue.push_eof
  rw [h]
  rfl

theorem runOps_feed (fp fpJ : FeedParser) (c : List Nat) (ops : List Op)
    (h : fp.feed c = some fpJ) :
    runOps fp (.feed c :: ops) = runOps fpJ ops := by
  conv_lhs => unfold runOps
  rw [h]

theorem runOps_read_ev (fp fpJ : FeedParser) (e : Event) (ops : List Op)
    (h : fp.read = (fpJ, .ok (some e))) :
    runOps fp (.readStep :: ops)
      = match runOps fpJ ops with
        | some (fpE, evs) => some (fpE, e :: evs)
        | none => none := by
  conv_lhs => unfold runOps
  rw [h]

theorem runOps_read_none (fp fpJ : FeedParser) (ops : List Op)
    (h : fp.read = (fpJ, .ok none)) :
    runOps fp (.readStep :: ops) = runOps fpJ ops := by
  conv_lhs => unfold runOps
  rw [h]

theorem runOps_read_err (fp fpJ : FeedParser) (e : Err) (ops : List Op)
    (h : fp.read = (fpJ, .error e)) :
    runOps fp (.readStep :: ops) = runOps fpJ ops := by
  conv_lhs => unfold runOps
  rw [h]

/-- Simulation relation between the interleaved-schedule parser `fpI`
(eof not yet fed; the bytes `pend` are still to be fed) and the
one-shot parser `fpO` (all bytes fed and eof marked) after both have
delivered the same events. -/
def SimOk (fpI fpO : FeedParser) (pend : List Nat) : Prop :=
  fpI.st = fpO.st ∧ fpI.err = none ∧ fpO.err = none ∧
  fpI.bufq.eof = false ∧ fpO.bufq.eof = true ∧
  fpO.bufq.flatten = fpI.bufq.flatten ++ pend

/-- Simulation relation once the interleaved run has hit a fatal
error: the one-shot parser has not consumed it yet, but its very next
event attempt produces the same fatal error. -/
def SimFail (fpI fpO : FeedParser) : Prop :=
  ∃ fe : FErr, fpI.err = some fe.toErr ∧ fpO.err = none ∧ fpO.st.pending = [] ∧
    readEvent fpO.st fpO.bufq.flatten fpO.bufq.eof = .fatal fe ∧
    fpI.bufq.eof = false ∧ fpO.bufq.eof = true

theorem flatten_mk (q : BufferQueue) (e : Bool) :
    BufferQueue.flatten ⟨q.chunks, e⟩ = q.flatten := rfl

theorem runOps_sim :
    ∀ (ops : List Op) (fpI fpO : FeedParser),
      (SimOk fpI fpO (opsBytes ops) ∨ SimFail fpI fpO) →
      ∀ (fpI2 : FeedParser) (E : List Event),
        runOps fpI ops = some (fpI2, E) →
        ∃ fpO2, readN E.length fpO = (fpO2, E) ∧
          (SimOk fpI2 fpO2 [] ∨ SimFail fpI2 fpO2) := by
  intro ops
  induction ops with
  | nil =>
    intro fpI fpO hrel fpI2 E hrun
    simp only [runOps] at hrun
    injection hrun with hr
    injection hr with hr1 hr2
    subst hr1
    subst hr2
    exact ⟨fpO, by simp [readN], hrel⟩
  | cons op rest ih =>
    intro fpI fpO hrel fpI2 E hrun
    cases op with
    | feed c =>
      have heofI : fpI.bufq.eof = false := by
        rcases hrel with ⟨_, _, _, h4, _⟩ | ⟨fe, _, _, _, _, h5, _⟩
        · exact h4
        · exact h5
      rw [runOps_feed fpI _ c rest (feed_some fpI c heofI)] at hrun
      refine ih _ fpO ?_ fpI2 E hrun
      rcases hrel with ⟨h1, h2, h3, h4, h5, h6⟩ | ⟨fe, k1, k2, k3, k4, k5, k6⟩
      · left
        refine ⟨h1, h2, h3, heofI, h5, ?_⟩
        rw [h6]
        show fpI.bufq.flatten ++ opsBytes (.feed c :: rest)
          = BufferQueue.flatten ⟨fpI.bufq.chunks ++ [c], fpI.bufq.eof⟩ ++ opsBytes rest
        rw [flatten_push, flatten_mk]
        show fpI.bufq.flatten ++ (c ++ opsBytes rest) = _
        rw [List.append_assoc]
      · exact Or.inr ⟨fe, k1, k2, k3, k4, heofI, k6⟩
    | readStep =>
      rcases hrel with ⟨hst, herrI, herrO, heofI, heofO, hflat⟩ | hfail
      · cases hp : fpI.st.pending with
        | cons p ps =>
          have hrI := read_pending fpI p ps herrI hp
          rw [runOps_read_ev fpI _ p rest hrI] at hrun
          cases hro : runOps { fpI with st := { fpI.st with pending := ps } } rest with
          | none => rw [hro] at hrun; simp at hrun
          | some q =>
            obtain ⟨fpE, evs⟩ := q
            rw [hro] at hrun
            injection hrun with hr
            injection hr with hr1 hr2
            subst hr1
            subst hr2
            have hrO := read_pending fpO p ps herrO (by rw [← hst, hp])
            have hrel2 : SimOk { fpI with st := { fpI.st with pending := ps } }
                { fpO with st := { fpO.st with pending := ps } } (opsBytes rest) :=
              ⟨by simp [hst], herrI, herrO, heofI, heofO, hflat⟩
            obtain ⟨fpO2, hN, hrel3⟩ := ih _ _ (Or.inl hrel2) fpE evs hro
            refine ⟨fpO2, ?_, hrel3⟩
            show readN (evs.length + 1) fpO = _
            rw [readN_step_ev evs.length fpO _ p hrO, hN]
        | nil =>
          cases hre : readEvent fpI.st fpI.bufq.flatten fpI.bufq.eof with
          | ev e st2 rest2 =>
            have hrI := read_ev fpI e st2 rest2 herrI hp hre
            rw [runOps_read_ev fpI _ e rest hrI] at hrun
            rw [heofI] at hre
            have hne : readEvent fpI.st fpI.bufq.flatten false ≠ .needMore := by
              rw [hre]; simp
            have hext := readEvent_extend fpI.st fpI.bufq.flatten (opsBytes rest) true hne
            rw [hre] at hext
            simp only [ROut.extend] at hext
            have hreO : readEvent fpO.st fpO.bufq.flatten fpO.bufq.eof
                = .ev e st2 (rest2 ++ opsBytes rest) := by
              rw [← hst, hflat, heofO]; exact hext
            have hrO := read_ev fpO e st2 (rest2 ++ opsBytes rest) herrO
              (by rw [← hst, hp]) hreO
            cases hro : runOps { fpI with st := st2, bufq := fpI.bufq.consume (fpI.bufq.flatten.length - rest2.length) } rest with
            | none => rw [hro] at hrun; simp at hrun
            | some q =>
              obtain ⟨fpE, evs⟩ := q
              rw [hro] at hrun
              injection hrun with hr
              injection hr with hr1 hr2
              subst hr1
              subst hr2
              have hflat2 : BufferQueue.flatten
                    (fpO.bufq.consume
                      (fpO.bufq.flatten.length - (rest2 ++ opsBytes rest).length))
                  = BufferQueue.flatten
                      (fpI.bufq.consume (fpI.bufq.flatten.length - rest2.length))
                    ++ opsBytes rest := by
                have hflat2 : fpO.bufq.flatten = fpI.bufq.flatten ++ opsBytes rest := hflat
                rw [consume_flatten, consume_flatten, hflat2, List.length_append,
                  List.length_append, Nat.add_sub_add_right,
                  List.drop_append_eq_append_drop,
                  Nat.sub_eq_zero_of_le (Nat.sub_le _ _), List.drop_zero]
              have hrel2 : SimOk
                  { fpI with st := st2, bufq := fpI.bufq.consume (fpI.bufq.flatten.length - rest2.length) }
                  { fpO with st := st2, bufq := fpO.bufq.consume (fpO.bufq.flatten.length - (rest2 ++ opsBytes rest).length) }
                  (opsBytes rest) := by
                refine ⟨rfl, herrI, herrO, ?_, ?_, hflat2⟩
                · show (fpI.bufq.consume _).eof = false
                  rw [consume_eof, heofI]
                · show (fpO.bufq.consume _).eof = true
                  rw [consume_eof, heofO]
              obtain ⟨fpO2, hN, hrel3⟩ := ih _ _ (Or.inl hrel2) fpE evs hro
              refine ⟨fpO2, ?_, hrel3⟩
              show readN (evs.length + 1) fpO = _
              rw [readN_step_ev evs.length fpO _ e hrO, hN]
          | eod =>
            have hrI := read_eod fpI herrI hp hre
            rw [runOps_read_none fpI fpI rest hrI] at hrun
            exact ih _ _ (Or.inl ⟨hst, herrI, herrO, heofI, heofO, hflat⟩) fpI2 E hrun
          | needMore =>
            have hrI := read_needMore fpI herrI hp hre
            rw [runOps_read_err fpI fpI _ rest hrI] at hrun
            exact ih _ _ (Or.inl ⟨hst, herrI, herrO, heofI, heofO, hflat⟩) fpI2 E hrun
          | fatal fe =>
            have hrI := read_fatal fpI fe herrI hp hre
            rw [runOps_read_err fpI _ _ rest hrI] at hrun
            rw [heofI] at hre
            have hne : readEvent fpI.st fpI.bufq.flatten false ≠ .needMore := by
              rw [hre]; simp
            have hext := readEvent_extend fpI.st fpI.bufq.flatten (opsBytes rest) true hne
            rw [hre] at hext
            simp only [ROut.extend] at hext
            have hfailO : readEvent fpO.st fpO.bufq.flatten fpO.bufq.eof = .fatal fe := by
              rw [← hst, hflat, heofO]; exact hext
            exact ih { fpI with err := some fe.toErr } fpO
              (Or.inr ⟨fe, rfl, herrO, by rw [← hst, hp], hfailO, heofI, heofO⟩)
              fpI2 E hrun
      · obtain ⟨fe, k1, k2, k3, k4, k5, k6⟩ := hfail
        have hrI := read_err fpI fe.toErr k1
        rw [runOps_read_err fpI fpI fe.toErr rest hrI] at hrun
        exact ih _ _ (Or.inr ⟨fe, k1, k2, k3, k4, k5, k6⟩) fpI2 E hrun

/-- C1: chunk-boundary invariance of the `FeedParser`.  For every
schedule of interleaved `feed` calls and `read` attempts starting from
a fresh parser, followed by `feed_eof` and a draining read loop, the
events delivered during the schedule followed by the drained events —
ignoring interleaved WouldBlock results, which deliver nothing and
change nothing — and the final outcome are identical to those of the
run that feeds the very same bytes as one single chunk, marks eof and
drains.  In particular, any partition of a document into consecutive
chunks yields the same event sequence as feeding it in one shot. -/
theorem feedParser_chunk_invariance
    (ops : List Op) (f1 f2 : Nat)
    (fpI2 fpI3 fpO fpO2 : FeedParser) (evsI : List Event)
    (r1 r2 : List Event × Except Err Unit)
    (h1 : runOps FeedParser.new ops = some (fpI2, evsI))
    (h2 : fpI2.feed_eof = some fpI3)
    (h3 : drain f1 fpI3 = some r1)
    (h4 : FeedParser.new.feed (opsBytes ops) = some fpO)
    (h5 : fpO.feed_eof = some fpO2)
    (h6 : drain f2 fpO2 = some r2) :
    evsI ++ r1.1 = r2.1 ∧ r1.2 = r2.2 := by
  have hO : fpO = ⟨⟨[opsBytes ops], false⟩, PState.init, none⟩ := by
    rw [feed_some FeedParser.new (opsBytes ops) rfl] at h4
    exact (Option.some.inj h4).symm
  subst hO
  have hO2 : fpO2 = ⟨⟨[opsBytes ops], true⟩, PState.init, none⟩ := by
    rw [feed_eof_some _ rfl] at h5
    exact (Option.some.inj h5).symm
  subst hO2
  have hrel0 : SimOk FeedParser.new ⟨⟨[opsBytes ops], true⟩, PState.init, none⟩
      (opsBytes ops) :=
    ⟨rfl, rfl, rfl, rfl, rfl, by
      show BufferQueue.flatten ⟨[opsBytes ops], true⟩ = [] ++ opsBytes ops
      show opsBytes ops ++ [] = [] ++ opsBytes ops
      simp⟩
  obtain ⟨fpO2x, hN, hrel⟩ :=
    runOps_sim ops FeedParser.new _ (Or.inl hrel0) fpI2 evsI h1
  obtain ⟨g2, hg2, rt, hrt, hr2eq⟩ :=
    drain_readN_decompose evsI.length _ fpO2x evsI f2 r2 hN rfl h6
  have heofI2 : fpI2.bufq.eof = false := by
    rcases hrel with ⟨_, _, _, h4x, _⟩ | ⟨fe, _, _, _, _, h5x, _⟩
    · exact h4x
    · exact h5x
  have hI3 : fpI3 = { fpI2 with bufq := ⟨fpI2.bufq.chunks, true⟩ } := by
    rw [feed_eof_some fpI2 heofI2] at h2
    exact (Option.some.inj h2).symm
  subst hI3
  rcases hrel with ⟨hst, herrI, herrO, heofI, heofO, hflat⟩ | ⟨fe, k1, k2, k3, k4, k5, k6⟩
  · have hobs : ObsEq { fpI2 with bufq := ⟨fpI2.bufq.chunks, true⟩ } fpO2x := by
      refine ⟨hst, herrI.trans herrO.symm, ?_, heofO.symm⟩
      show BufferQueue.flatten ⟨fpI2.bufq.chunks, true⟩ = fpO2x.bufq.flatten
      rw [flatten_mk, hflat, List.append_nil]
    have hq := drain_obs f1 _ fpO2x g2 r1 rt hobs h3 hrt
    exact ⟨by rw [hr2eq, hq], by rw [hr2eq, hq]⟩
  · have hr1 : r1 = ([], .error fe.toErr) := by
      cases f1 with
      | zero => simp [drain] at h3
      | succ g =>
        have hrd := read_err { fpI2 with bufq := ⟨fpI2.bufq.chunks, true⟩ } fe.toErr k1
        rw [drain_step_err g _ _ fe.toErr hrd] at h3
        exact (Option.some.inj h3).symm
    have hrt2 : rt = ([], .error fe.toErr) := by
      cases g2 with
      | zero => simp [drain] at hrt
      | succ g =>
        have hrd := read_fatal fpO2x fe k2 k3 k4
        rw [drain_step_err g _ _ fe.toErr hrd] at hrt
        exact (Option.some.inj hrt).symm
    exact ⟨by rw [hr2eq, hrt2, hr1], by rw [hr2eq, hrt2, hr1]⟩

/-- Witness for `feedParser_chunk_invariance`: the document
`<a><b/></a>` fed as the chunks `<a`, `><b`, `/></a>` with two
interleaved reads (the first would-blocks, the second already delivers
the root StartElement) produces, together with the final drain, the
same events and outcome as feeding the whole document in one chunk. -/
theorem feedParser_chunk_invariance_witness :
    ([Event.startElement ⟨none, bs "a"⟩ []] ++
        [Event.startElement ⟨none, bs "b"⟩ [], Event.endElement ⟨none, bs "b"⟩,
         Event.endElement ⟨none, bs "a"⟩]
      = [Event.startElement ⟨none, bs "a"⟩ [], Event.startElement ⟨none, bs "b"⟩ [],
         Event.endElement ⟨none, bs "b"⟩, Event.endElement ⟨none, bs "a"⟩]) ∧
    (Except.ok () : Except Err Unit) = Except.ok () :=
  feedParser_chunk_invariance
    [.feed (bs "<a"), .readStep, .feed (bs "><b"), .readStep, .feed (bs "/></a>")]
    6 6 _ _ _ _ _ _ _ rfl rfl rfl rfl rfl rfl
